import Mathlib

/-!
MascotInfile: encoder and decoder of the Mascot generic text format.

Shallow embedding of `src/openms/source/FORMAT/MascotInfile.cpp`.

* Text (`std::string`, `OpenMS::String`) is the list of its characters.
* A `FILE*` opened for writing is the text written to it so far; every
  `fputs` appends.
* An `istream` read only through `getline` is the list of the lines that
  `getline` will still deliver; the cursor is that list.
* Exceptions are the error side of `Except`.
* `double` values are an abstract type `D`; text conversion of numbers is a
  collaborator passed as a record (`Numeric D`).
-/

namespace OpenMS

/-- Text as a list of characters. -/
abbrev Str := List Char

/-! ## String helpers (class `OpenMS::String`, declared outside the file at hand) -/

/-- Modelled from the spec: the whitespace characters removed by `String::trim`
(blank, tab, line feed, carriage return); the class `String` is not part of the
sources at hand. -/
def isWhite (c : Char) : Bool :=
  c == ' ' || c == '\t' || c == '\n' || c == '\r'

/-- Modelled from the spec: `String::trim`, which removes leading and trailing
whitespace ("trimmed line"); the class `String` is not part of the sources at
hand. In the source `trim` works in place and returns the string itself. -/
def trim (s : Str) : Str :=
  ((s.dropWhile isWhite).reverse.dropWhile isWhite).reverse

/-- Splits a text at every occurrence of `c`; empty fields are kept, so the
result always has one field more than there are occurrences of `c`. -/
def splitAll (c : Char) : Str → List Str
  | [] => [[]]
  | x :: xs =>
    if x = c then [] :: splitAll c xs
    else
      match splitAll c xs with
      | [] => [[x]]
      | l :: ls => (x :: l) :: ls

/-- Modelled from the spec: `String::split(char, vector<String>&)` ("split the
line on ..."); the class `String` is not part of the sources at hand. An empty
text yields no field (the callers test `split.empty()`), a text without the
splitter yields itself, otherwise every field between splitters. -/
def split (c : Char) (s : Str) : List Str :=
  if s = [] then [] else splitAll c s

/-- Modelled from the spec: `String::substitute(char, char)` ("tabs normalized
to spaces"); the class `String` is not part of the sources at hand. -/
def substitute (src dst : Char) (s : Str) : Str :=
  s.map (fun x => if x = src then dst else x)

/-- Modelled from the spec: `String::remove(char)` ("`+` characters stripped");
the class `String` is not part of the sources at hand. -/
def remove (c : Char) (s : Str) : Str :=
  s.filter (fun x => x != c)

/-- Modelled from the spec: `String::hasPrefix` ("line prefixed ..."); the class
`String` is not part of the sources at hand. -/
def hasPrefix (s p : Str) : Bool :=
  p.isPrefixOf s

/-- Modelled from the spec: `String::hasSubstring` ("contains the substring");
the class `String` is not part of the sources at hand. -/
def hasSubstring : Str → Str → Bool
  | [], sub => sub.isEmpty
  | x :: xs, sub => sub.isPrefixOf (x :: xs) || hasSubstring xs sub

/-- Modelled from the spec: `String::substr(pos)`, the text from position `pos`
on ("remainder"); the class `String` is not part of the sources at hand. A
position past the end gives the empty text. -/
def substr (pos : Nat) (s : Str) : Str :=
  s.drop pos

/-- Decimal digits of a natural number, as `ostream << unsigned` prints it. -/
def showNat (n : Nat) : Str :=
  Nat.toDigits 10 n

/-- The lines `getline(is, line, '\n')` delivers for a stream holding `text`:
the fields between line feeds, without a last field that is empty (at the end
of the text `getline` extracts nothing and fails). -/
def istream (text : Str) : List Str :=
  let parts := splitAll '\n' text
  if parts.getLast? = some [] then parts.dropLast else parts


/-! ## Numbers -/

/-- Conversions between numbers and text, which the file at hand only calls:
`String::toDouble`, `String::toInt` (`none` is the `ConversionError` they
throw), `precisionWrapper` followed by `<<`, plain `<<` of a `float`, comparison
of positions, and the product with the constant `60.0`. -/
structure Numeric (D : Type) where
  zero : D
  times60 : D → D
  le : D → D → Bool
  toDouble : Str → Option D
  toInt : Str → Option Int
  precisionWrapper : D → Str
  shiftOut : D → Str

/-- Value of an `Int` converted to `UInt` (32 bits). -/
def toUInt (n : Int) : Nat :=
  (n % 4294967296).toNat

/-- Value of a 32-bit signed `Int` expression computed without range check. -/
def wrapInt (n : Int) : Int :=
  (n + 2147483648) % 4294967296 - 2147483648

/-- Decimal text of a signed integer, as `ostream << int` prints it. -/
def showInt (n : Int) : Str :=
  if n < 0 then '-' :: showNat n.natAbs else showNat n.toNat

/-! ## The decoder `getNextSpectrum_` -/

/-- Exceptions that leave `getNextSpectrum_`: the `ParseError`s it throws with
their message, and the `ConversionError` of `toDouble` and `toInt`. -/
inductive Err where
  | ParseError (message : Str)
  | ConversionError
deriving DecidableEq, Repr

/-- The six reference parameters of `getNextSpectrum_`; `charge` is a `UInt`. -/
structure Outputs (D : Type) where
  spectrum : List (D × D)
  charge : Nat
  precursor_mz : D
  precursor_int : D
  rt : D
  title : Str
deriving DecidableEq, Repr

/-- What a call of `getNextSpectrum_` leaves behind when it returns: the
returned flag, the outputs, and the lines still unread. -/
abbrev Return (D : Type) := Bool × Outputs D × List Str

/-- Source lines 594-616: the `PEPMASS` branch, on the trimmed line. -/
def pepmassBranch {D : Type} (nf : Numeric D) (line : Str) (out : Outputs D) :
    Except Err (Outputs D) :=
  if hasPrefix line "PEPMASS".toList then
    match split ' ' (substitute '\t' ' ' (substr 8 line)) with
    | [a] =>
      match nf.toDouble (trim a) with
      | some mz => .ok { out with precursor_mz := mz }
      | none => .error .ConversionError
    | [a, b] =>
      match nf.toDouble (trim a), nf.toDouble (trim b) with
      | some mz, some int => .ok { out with precursor_mz := mz, precursor_int := int }
      | _, _ => .error .ConversionError
    | _ => .error (.ParseError ("cannot parse PEPMASS: ".toList ++ line))
  else .ok out

/-- Source lines 617-622: the `CHARGE` branch; the `Int` of `toInt` is assigned
to the `UInt&` parameter. -/
def chargeBranch {D : Type} (nf : Numeric D) (line : Str) (out : Outputs D) :
    Except Err (Outputs D) :=
  if hasPrefix line "CHARGE".toList then
    match nf.toInt (remove '+' (substr 7 line)) with
    | some n => .ok { out with charge := toUInt n }
    | none => .error .ConversionError
  else .ok out

/-- Source lines 623-627: the `RTINSECONDS` branch. -/
def rtBranch {D : Type} (nf : Numeric D) (line : Str) (out : Outputs D) :
    Except Err (Outputs D) :=
  if hasPrefix line "RTINSECONDS".toList then
    match nf.toDouble (substr 12 line) with
    | some rt => .ok { out with rt := rt }
    | none => .error .ConversionError
  else .ok out

/-- Source lines 639-650: the loop over the comma separated parts of a title
holding "min". Returns the retention time reached and whether a
`ConversionError` ended the loop early. -/
def minuteLoop {D : Type} (nf : Numeric D) : List Str → D → D × Bool
  | [], rt => (rt, false)
  | part :: parts, rt =>
    if hasSubstring part "min".toList then
      match split ' ' (trim part) with
      | [] => minuteLoop nf parts rt
      | first :: _ =>
        match nf.toDouble (trim first) with
        | some minutes => minuteLoop nf parts (nf.times60 minutes)
        | none => (rt, true)
    else minuteLoop nf parts rt

/-- Source lines 628-674: the `TITLE` branch; the `catch` clause takes the
title from the raw line. -/
def titleBranch {D : Type} (nf : Numeric D) (line : Str) (out : Outputs D) : Outputs D :=
  if hasPrefix line "TITLE".toList then
    if hasSubstring line "min".toList then
      match minuteLoop nf (split ',' line) out.rt with
      | (rt, false) => { out with rt := rt }
      | (rt, true) =>
        match split '=' line with
        | _ :: second :: _ => { out with rt := rt, title := second }
        | _ => { out with rt := rt }
    else
      match split '=' line with
      | _ :: second :: _ => { out with title := second }
      | _ => out
  else out

/-- Source lines 594-674: the four field tests applied in turn to one line. -/
def headerLine {D : Type} (nf : Numeric D) (line : Str) (out : Outputs D) :
    Except Err (Outputs D) :=
  match pepmassBranch nf line out with
  | .error e => .error e
  | .ok out1 =>
    match chargeBranch nf line out1 with
    | .error e => .error e
    | .ok out2 =>
      match rtBranch nf line out2 with
      | .error e => .error e
      | .ok out3 => .ok (titleBranch nf line out3)

/-- Source line 675: `line.trim().size() > 0 && isdigit(line[0])`, on the
trimmed line. -/
def startsPeaks (line : Str) : Bool :=
  match line with
  | [] => false
  | c :: _ => c.isDigit

/-- Source lines 679-697: the body of the `do` loop, one peak line. -/
def peakLine {D : Type} (nf : Numeric D) (line : Str) : Except Err (D × D) :=
  let line := substitute '\t' ' ' line
  match split ' ' line with
  | [a, b] =>
    match nf.toDouble a, nf.toDouble b with
    | some mz, some int => .ok (mz, int)
    | _, _ => .error .ConversionError
  | [a, b, _] =>
    match nf.toDouble a, nf.toDouble b with
    | some mz, some int => .ok (mz, int)
    | _, _ => .error .ConversionError
  | _ =>
    .error (.ParseError ("the line (".toList ++ line ++
      ") should contain m/z and intensity value separated by whitespace!".toList))

/-- Source lines 677-708: the `do ... while` loop over the peak lines and the
test for `END IONS` after it. `line` is the current, trimmed line and `rest`
the lines still unread. When `getline` fails, `line` is empty or still holds
the peak line just read, whose first field was read as a number: it is not
`END IONS`, and the `ParseError` for the missing `END IONS` is thrown. -/
def peakLoop {D : Type} (nf : Numeric D) (out : Outputs D) (line : Str) :
    List Str → Except Err (Return D)
  | [] =>
    match peakLine nf line with
    | .error e => .error e
    | .ok _ =>
      .error (.ParseError "Found \"BEGIN IONS\" but not the corresponding \"END IONS\"!".toList)
  | next :: rest =>
    match peakLine nf line with
    | .error e => .error e
    | .ok p =>
      if trim next = "END IONS".toList then
        .ok (true, { out with spectrum := out.spectrum ++ [p] }, rest)
      else
        peakLoop nf { out with spectrum := out.spectrum ++ [p] } (trim next) rest

/-- Source lines 591-710: the inner `while (getline(is, line, '\n'))` loop that
runs after `BEGIN IONS`. At the end of the stream the outer loop ends as well
and `ok`, which is `false`, is returned. -/
def blockLoop {D : Type} (nf : Numeric D) : Outputs D → List Str → Except Err (Return D)
  | out, [] => .ok (false, out, [])
  | out, raw :: rest =>
    match headerLine nf (trim raw) out with
    | .error e => .error e
    | .ok out1 =>
      if startsPeaks (trim raw) then peakLoop nf out1 (trim raw) rest
      else blockLoop nf out1 rest

/-- Source lines 585-712: the outer `while (getline(is, line, '\n'))` loop that
seeks `BEGIN IONS`. -/
def seekLoop {D : Type} (nf : Numeric D) : Outputs D → List Str → Except Err (Return D)
  | out, [] => .ok (false, out, [])
  | out, raw :: rest =>
    if trim raw = "BEGIN IONS".toList then blockLoop nf out rest
    else seekLoop nf out rest

/-- Source lines 577-581: the assignments at the start of `getNextSpectrum_`. -/
def resetOutputs {D : Type} (nf : Numeric D) (out : Outputs D) : Outputs D :=
  { out with spectrum := [], charge := 0, precursor_mz := nf.zero, precursor_int := nf.zero }

/-- The decoder `MascotInfile::getNextSpectrum_`: `out` holds the values of the
reference parameters at the call, `is` the unread lines of the stream. -/
def getNextSpectrum_ {D : Type} (nf : Numeric D) (out : Outputs D) (is : List Str) :
    Except Err (Return D) :=
  seekLoop nf (resetOutputs nf out) is

/-! ## The encoder -/

/-- The data members of class `MascotInfile` that the encoder reads. -/
structure MascotInfile (D : Type) where
  mz_ : D
  charges_ : Str
  search_title_ : Str
  retention_time_ : D
  boundary_ : Str
  db_ : Str
  search_type_ : Str
  hits_ : Str
  cleavage_ : Str
  mass_type_ : Str
  mods_ : List Str
  variable_mods_ : List Str
  instrument_ : Str
  missed_cleavages_ : Nat
  precursor_mass_tolerance_ : D
  ion_mass_tolerance_ : D
  taxonomy_ : Str
  form_version_ : Str

/-- Source lines 117-128: `writeParameterHeader_`; the result is the text
appended to the file. -/
def writeParameterHeader_ {D : Type} (self : MascotInfile D) (name : Str) (line_break : Bool) :
    Str :=
  (if line_break then "\n".toList else []) ++
  "--".toList ++ self.boundary_ ++
  "\nContent-Disposition: form-data; name=\"".toList ++ name ++
  "\"\n\n".toList

/-- Source lines 130-234: `writeHeader_`; the result is the text appended to the
file. Calls of `writeParameterHeader_` with two arguments take the default
`line_break = true`. -/
def writeHeader_ {D : Type} (nf : Numeric D) (self : MascotInfile D) : Str :=
  (if self.search_title_ ≠ [] then
      writeParameterHeader_ self "COM".toList false ++ self.search_title_ ++
      writeParameterHeader_ self "USERNAME".toList true
    else
      writeParameterHeader_ self "USERNAME".toList false) ++
  "OpenMS".toList ++
  writeParameterHeader_ self "FORMAT".toList true ++ "Mascot generic".toList ++
  writeParameterHeader_ self "TOLU".toList true ++ "Da".toList ++
  writeParameterHeader_ self "ITOLU".toList true ++ "Da".toList ++
  writeParameterHeader_ self "FORMVER".toList true ++ self.form_version_ ++
  writeParameterHeader_ self "DB".toList true ++ self.db_ ++
  writeParameterHeader_ self "SEARCH".toList true ++ self.search_type_ ++
  writeParameterHeader_ self "REPORT".toList true ++ self.hits_ ++
  writeParameterHeader_ self "CLE".toList true ++ self.cleavage_ ++
  writeParameterHeader_ self "MASS".toList true ++ self.mass_type_ ++
  self.mods_.flatMap (fun it => writeParameterHeader_ self "MODS".toList true ++ it) ++
  self.variable_mods_.flatMap
    (fun it => writeParameterHeader_ self "IT_MODS".toList true ++ it) ++
  writeParameterHeader_ self "INSTRUMENT".toList true ++ self.instrument_ ++
  writeParameterHeader_ self "PFA".toList true ++ showNat self.missed_cleavages_ ++
  writeParameterHeader_ self "TOL".toList true ++ nf.shiftOut self.precursor_mass_tolerance_ ++
  writeParameterHeader_ self "ITOL".toList true ++ nf.shiftOut self.ion_mass_tolerance_ ++
  writeParameterHeader_ self "TAXONOMY".toList true ++ self.taxonomy_ ++
  writeParameterHeader_ self "CHARGE".toList true ++ self.charges_

/-- Source lines 275-287: one line per peak of the spectrum. -/
def peakLines {D : Type} (nf : Numeric D) (peaks : List (D × D)) : Str :=
  peaks.flatMap (fun it =>
    nf.precisionWrapper it.1 ++ " ".toList ++ nf.precisionWrapper it.2 ++ "\n".toList)

/-- Source lines 253-257 (and again 299-303): the lines that open the file
attachment. -/
def attachmentHeader {D : Type} (self : MascotInfile D) (filename : Str) : Str :=
  "\n--".toList ++ self.boundary_ ++
  "\nContent-Disposition: form-data; name=\"FILE\"; filename=\"".toList ++ filename ++
  "\"\n\n".toList

/-- Source lines 236-290: `writeSpectrum_`; the result is the text appended to
the file. The notice for `mz_ == 0` goes to `cout`, not to the file. -/
def writeSpectrum_ {D : Type} [DecidableEq D] (nf : Numeric D) (self : MascotInfile D)
    (filename : Str) (peaks : List (D × D)) : Str :=
  if self.mz_ = nf.zero then []
  else
    attachmentHeader self filename ++
    "BEGIN IONS\n".toList ++
    ("TITLE=".toList ++ (nf.precisionWrapper self.mz_ ++ "_".toList ++
      nf.precisionWrapper self.retention_time_) ++ "\n".toList) ++
    ("PEPMASS=".toList ++ nf.precisionWrapper self.mz_ ++ "\n".toList) ++
    ("RTINSECONDS=".toList ++ nf.precisionWrapper self.retention_time_ ++ "\n".toList) ++
    peakLines nf peaks ++
    "END IONS\n".toList

/-- Source lines 67-90: `store` for one spectrum; the result is the content of
the file written. -/
def store {D : Type} [DecidableEq D] (nf : Numeric D) (self : MascotInfile D) (filename : Str)
    (spec : List (D × D)) (mz retention_time : D) (search_title : Str) : Str :=
  let self1 := { self with mz_ := mz, retention_time_ := retention_time,
                           search_title_ := search_title }
  writeHeader_ nf self1 ++ writeSpectrum_ nf self1 filename spec ++
  "\n".toList ++ "\n--".toList ++ self1.boundary_ ++ "--".toList

/-- Source lines 536-571: the loop of `setCharges` from index `i` on; `size` is
`charges.size()` and the list holds `charges[i]`, `charges[i+1]`, ... -/
def chargesLoop (size : Nat) : Nat → List Int → Str
  | _, [] => []
  | i, c :: cs =>
    (if i = 0 then
        (if c > 0 then showInt c ++ "+".toList
         else showInt (wrapInt (-1 * c)) ++ "-".toList)
      else if i < size - 1 then
        (if c > 0 then ", ".toList ++ showInt c ++ "+".toList
         else ", ".toList ++ showInt (wrapInt (-1 * c)) ++ "-".toList)
      else
        (if c > 0 then " and ".toList ++ showInt c ++ "+".toList
         else " and ".toList ++ showInt (wrapInt (-1 * c)) ++ "-".toList)) ++
    chargesLoop size (i + 1) cs

/-- Source line 534: `sort(charges.begin(), charges.end())` on `Int`s. -/
def sortCharges (charges : List Int) : List Int :=
  charges.insertionSort (fun a b => a ≤ b)

/-- Source lines 530-573: `setCharges`. The result is the object with its new
`charges_` and the caller's vector, which is sorted in place. -/
def setCharges {D : Type} (self : MascotInfile D) (charges : List Int) :
    MascotInfile D × List Int :=
  ({ self with charges_ := chargesLoop (sortCharges charges).length 0 (sortCharges charges) },
   sortCharges charges)

/-! ## A concrete collaborator for evaluating examples -/

/-- Reads a non-empty row of decimal digits. -/
def readNat (s : Str) : Option Nat :=
  if !s.isEmpty && s.all Char.isDigit then
    some (s.foldl (fun n c => 10 * n + (c.toNat - 48)) 0)
  else none

/-- Reads a signed decimal integer that fits a 32-bit `Int`. -/
def readInt (s : Str) : Option Int :=
  match s with
  | '-' :: t => (readNat t).bind (fun n => if n ≤ 2147483648 then some (-(n : Int)) else none)
  | '+' :: t => (readNat t).bind (fun n => if n < 2147483648 then some (n : Int) else none)
  | t => (readNat t).bind (fun n => if n < 2147483648 then some (n : Int) else none)

/-- Reads the thousandths of an unsigned decimal number with at most three
decimals. -/
def readMilliNat (s : Str) : Option Nat :=
  match splitAll '.' s with
  | [whole] => (readNat whole).map (fun n => 1000 * n)
  | [whole, frac] =>
    if frac.length ≤ 3 then
      match readNat whole, readNat frac with
      | some n, some f => some (1000 * n + f * 10 ^ (3 - frac.length))
      | _, _ => none
    else none
  | _ => none

/-- Reads a signed decimal number with at most three decimals; the value is its
number of thousandths. -/
def readMilli (s : Str) : Option Int :=
  match s with
  | '-' :: t => (readMilliNat t).map (fun n => -(n : Int))
  | t => (readMilliNat t).map (fun n => (n : Int))

/-- Prints a number of thousandths as a decimal number without trailing zeros. -/
def showMilli (x : Int) : Str :=
  let frac := x.natAbs % 1000
  let digits := [Nat.digitChar (frac / 100), Nat.digitChar (frac / 10 % 10),
    Nat.digitChar (frac % 10)]
  let kept := (digits.reverse.dropWhile (fun c => c == '0')).reverse
  (if x < 0 then ['-'] else []) ++ showNat (x.natAbs / 1000) ++
  (if kept.isEmpty then [] else '.' :: kept)

/-- A collaborator for numbers with at most three decimals, each held as its
number of thousandths: 10.9 is 10900. It gives the examples below concrete
values; the general statements hold for every collaborator. -/
def milli : Numeric Int where
  zero := 0
  times60 := fun x => x * 60
  le := fun a b => decide (a ≤ b)
  toDouble := readMilli
  toInt := readInt
  precisionWrapper := showMilli
  shiftOut := showMilli

/-- The values the constructor of `MascotInfile` assigns (source lines 46-65),
for a given boundary in place of the random one. -/
def defaults (boundary : Str) : MascotInfile Int where
  mz_ := 0
  charges_ := "1+, 2+ and 3+".toList
  search_title_ := []
  retention_time_ := 0
  boundary_ := boundary
  db_ := "MSDB".toList
  search_type_ := "MIS".toList
  hits_ := "AUTO".toList
  cleavage_ := "Trypsin".toList
  mass_type_ := "Monoisotopic".toList
  mods_ := []
  variable_mods_ := []
  instrument_ := "Default".toList
  missed_cleavages_ := 1
  precursor_mass_tolerance_ := 2000
  ion_mass_tolerance_ := 1000
  taxonomy_ := "All entries".toList
  form_version_ := "1.01".toList

/-- Lines of a stream given line by line as string literals. -/
def lines (ls : List String) : List Str :=
  ls.map String.toList

/-! ## Definitions that follow the words of the specification -/

/-- One entry of a rendered charge list, in the words of the specification: the
unsigned magnitude, then `+` for a positive charge and `-` otherwise. -/
def chargeEntry (c : Int) : Str :=
  showNat c.natAbs ++ [if c > 0 then '+' else '-']

/-- The entries after the first one, in the words of the specification: the
last one is preceded by " and ", every other one by ", ". -/
def chargeEntriesAfterFirst : List Int → Str
  | [] => []
  | [c] => " and ".toList ++ chargeEntry c
  | c :: d :: cs => ", ".toList ++ chargeEntry c ++ chargeEntriesAfterFirst (d :: cs)

/-- The rendering of a charge list in the words of the specification. -/
def renderCharges : List Int → Str
  | [] => []
  | c :: cs => chargeEntry c ++ chargeEntriesAfterFirst cs

/-- The sections of a header in the words of the specification: each field is
introduced by `writeParameterHeader_` with its name and followed by its value;
only the first field has no line break before it. -/
def renderFields {D : Type} (self : MascotInfile D) : Bool → List (Str × Str) → Str
  | _, [] => []
  | line_break, (name, value) :: rest =>
    writeParameterHeader_ self name line_break ++ value ++ renderFields self true rest

/-- The fields of the header with their values, in the order of section 4.1 of
the specification. -/
def headerFields {D : Type} (nf : Numeric D) (self : MascotInfile D) : List (Str × Str) :=
  (if self.search_title_ ≠ [] then [("COM".toList, self.search_title_)] else []) ++
  [("USERNAME".toList, "OpenMS".toList), ("FORMAT".toList, "Mascot generic".toList),
   ("TOLU".toList, "Da".toList), ("ITOLU".toList, "Da".toList),
   ("FORMVER".toList, self.form_version_), ("DB".toList, self.db_),
   ("SEARCH".toList, self.search_type_), ("REPORT".toList, self.hits_),
   ("CLE".toList, self.cleavage_), ("MASS".toList, self.mass_type_)] ++
  self.mods_.map (fun it => ("MODS".toList, it)) ++
  self.variable_mods_.map (fun it => ("IT_MODS".toList, it)) ++
  [("INSTRUMENT".toList, self.instrument_), ("PFA".toList, showNat self.missed_cleavages_),
   ("TOL".toList, nf.shiftOut self.precursor_mass_tolerance_),
   ("ITOL".toList, nf.shiftOut self.ion_mass_tolerance_),
   ("TAXONOMY".toList, self.taxonomy_), ("CHARGE".toList, self.charges_)]

/-- The header lines of a block taken in turn: the four field tests of
`getNextSpectrum_` applied to each trimmed line, stopping at the first exception. -/
def headerLines {D : Type} (nf : Numeric D) : Outputs D → List Str → Except Err (Outputs D)
  | out, [] => .ok out
  | out, raw :: rest =>
    match headerLine nf (trim raw) out with
    | .error e => .error e
    | .ok out1 => headerLines nf out1 rest

/-- A complete block with at least one peak line, read with the outputs `out` at
the call: a line that trims to `BEGIN IONS`, header lines that do not start with
a digit and raise nothing, a first peak line that starts with a digit, further
peak lines, all of them well formed and none trimming to `END IONS`, and a line
that trims to `END IONS`. `data` is what the block holds: the outputs after the
header lines, with the peaks of the peak lines in their order. -/
def IsBlock {D : Type} (nf : Numeric D) (out : Outputs D) (block : List Str)
    (data : Outputs D) : Prop :=
  ∃ (b : Str) (hdr : List Str) (p : Str) (more : List Str) (e : Str) (o : Outputs D)
    (ps : List (D × D)),
    block = b :: (hdr ++ p :: (more ++ [e])) ∧
    trim b = "BEGIN IONS".toList ∧
    (∀ l ∈ hdr, startsPeaks (trim l) = false) ∧
    headerLines nf (resetOutputs nf out) hdr = .ok o ∧
    startsPeaks (trim p) = true ∧
    List.Forall₂ (fun l q => peakLine nf (trim l) = .ok q) (p :: more) ps ∧
    (∀ l ∈ more, trim l ≠ "END IONS".toList) ∧
    trim e = "END IONS".toList ∧
    data = { o with spectrum := ps }

/-- Characters of the text of a finite number: digits, point, signs and the
exponent letter. -/
def numberChar (c : Char) : Bool :=
  c.isDigit || c == '.' || c == '-' || c == '+' || c == 'e'

/-- Text of a finite number: not empty and made of number characters only. -/
def isNumberText (s : Str) : Bool :=
  !s.isEmpty && s.all numberChar

/-- Number formatting followed by number parsing is the identity at `x`: the
text printed for `x` is the text of a finite number and `toDouble` reads it
back as `x`. -/
def roundTrips {D : Type} [DecidableEq D] (nf : Numeric D) (x : D) : Bool :=
  isNumberText (nf.precisionWrapper x) && decide (nf.toDouble (nf.precisionWrapper x) = some x)

/-! ## The encoder for an experiment -/

/-- The members of `Precursor` that the encoder reads; the charge is an `Int`. -/
structure Precursor (D : Type) where
  mz : D
  charge : Int

/-- The members of `MSSpectrum<>` that the encoder reads: the peaks as pairs of
m/z and intensity, the precursors, the MS level (a `UInt`) and the retention
time. -/
structure MSSpectrum (D : Type) where
  peaks : List (D × D)
  precursors : List (Precursor D)
  msLevel : Nat
  rt : D

/-- Source line 308: `peaks.sortByPosition()`, a sort of the peaks by m/z with
the comparison of the collaborator. Peaks of equal m/z have no order fixed by
the source; the insertion sort keeps their input order. -/
def sortByPosition {D : Type} (nf : Numeric D) (peaks : List (D × D)) : List (D × D) :=
  peaks.insertionSort (fun a b => nf.le a.1 b.1 = true)

/-- Source lines 309-313: the first precursor of the spectrum, or a default
constructed `Precursor` (m/z 0, charge 0) when there is none. -/
def firstPrecursor {D : Type} (nf : Numeric D) (spec : MSSpectrum D) : Precursor D :=
  match spec.precursors with
  | [] => ⟨nf.zero, 0⟩
  | p :: _ => p

/-- Source lines 348-361: the `CHARGE` line of a block. -/
def chargeLine (charge : Int) : Str :=
  if charge ≠ 0 then
    "CHARGE=".toList ++ ((if charge > 0 then "+".toList else "-".toList) ++ showInt charge) ++
      "\n".toList
  else []

/-- Source lines 307-381: the body of the loop of `writeMSExperiment_`; the
result is the text appended to the file for one spectrum. Warnings and notices
go to `cerr` and `cout`, not to the file. -/
def spectrumBlock {D : Type} [DecidableEq D] (nf : Numeric D) (spec : MSSpectrum D) : Str :=
  if spec.msLevel = 2 then
    if (firstPrecursor nf spec).mz = nf.zero then []
    else
      "\nBEGIN IONS\n".toList ++
      ("TITLE=".toList ++ (nf.precisionWrapper (firstPrecursor nf spec).mz ++ "_".toList ++
        nf.precisionWrapper spec.rt) ++ "\n".toList) ++
      ("PEPMASS=".toList ++ nf.precisionWrapper (firstPrecursor nf spec).mz ++ "\n".toList) ++
      ("RTINSECONDS=".toList ++ nf.precisionWrapper spec.rt ++ "\n".toList) ++
      chargeLine (firstPrecursor nf spec).charge ++
      "\n".toList ++
      peakLines nf (sortByPosition nf spec.peaks) ++
      "END IONS\n".toList
  else []

/-- Source lines 292-383: `writeMSExperiment_`; the result is the text appended
to the file. -/
def writeMSExperiment_ {D : Type} [DecidableEq D] (nf : Numeric D) (self : MascotInfile D)
    (filename : Str) (experiment : List (MSSpectrum D)) : Str :=
  attachmentHeader self filename ++ experiment.flatMap (spectrumBlock nf)

/-- Source lines 97-115: the overload of `store` for an experiment; the result
is the content of the file written. -/
def storeMSExperiment {D : Type} [DecidableEq D] (nf : Numeric D) (self : MascotInfile D)
    (filename : Str) (experiment : List (MSSpectrum D)) (search_title : Str) : Str :=
  let self1 := { self with search_title_ := search_title }
  writeHeader_ nf self1 ++ writeMSExperiment_ nf self1 filename experiment ++
  "\n".toList ++ "\n--".toList ++ self1.boundary_ ++ "--".toList

/-- A spectrum that the specification lets into the file: MS level 2 and a first
precursor with an m/z other than 0. -/
def isWritten {D : Type} [DecidableEq D] (nf : Numeric D) (spec : MSSpectrum D) : Bool :=
  decide (spec.msLevel = 2) && !decide ((firstPrecursor nf spec).mz = nf.zero)

/-- The comma separated parts of a title line that hold "min". -/
def minuteParts (line : Str) : List Str :=
  (split ',' line).filter (fun part => hasSubstring part "min".toList)

/-- The first blank separated field of a trimmed part of a title line, read as
a number. -/
def minutesOf {D : Type} (nf : Numeric D) (part : Str) : Option D :=
  match split ' ' (trim part) with
  | [] => none
  | first :: _ => nf.toDouble (trim first)

deriving instance DecidableEq for Except

/-! ## Lemmas on the string helpers -/

theorem splitAll_ne_nil (c : Char) (s : Str) : splitAll c s ≠ [] := by
  induction s with
  | nil => simp [splitAll]
  | cons x xs ih =>
    unfold splitAll
    split
    · simp
    · split <;> simp

theorem splitAll_of_not_mem (c : Char) (s : Str) (h : c ∉ s) : splitAll c s = [s] := by
  induction s with
  | nil => rfl
  | cons x xs ih =>
    have hx : x ≠ c := fun e => h (by simp [e])
    have hxs : c ∉ xs := fun m => h (List.mem_cons_of_mem _ m)
    unfold splitAll
    rw [if_neg hx, ih hxs]

theorem splitAll_append_cons (c : Char) (a b : Str) :
    splitAll c (a ++ c :: b) = splitAll c a ++ splitAll c b := by
  induction a with
  | nil => simp [splitAll]
  | cons x xs ih =>
    by_cases hx : x = c
    · simp [splitAll, hx, ih]
    · rw [List.cons_append, splitAll, if_neg hx, ih, splitAll, if_neg hx]
      cases h : splitAll c xs with
      | nil => exact absurd h (splitAll_ne_nil c xs)
      | cons l ls => simp

theorem dropWhile_isWhite_of_head (c : Char) (t : Str) (h : isWhite c = false) :
    (c :: t).dropWhile isWhite = c :: t := by
  simp [List.dropWhile, h]

theorem trim_eq_self (s : Str) (c d : Char) (hc : s.head? = some c) (hcw : isWhite c = false)
    (hd : s.getLast? = some d) (hdw : isWhite d = false) : trim s = s := by
  unfold trim
  cases s with
  | nil => simp at hc
  | cons x t =>
    simp only [List.head?_cons, Option.some.injEq] at hc
    subst hc
    rw [dropWhile_isWhite_of_head x t hcw]
    have hr : (x :: t).reverse.head? = some d := by
      rw [List.head?_reverse]; exact hd
    cases hrev : (x :: t).reverse with
    | nil => simp at hrev
    | cons y u =>
      rw [hrev] at hr
      simp only [List.head?_cons, Option.some.injEq] at hr
      subst hr
      rw [dropWhile_isWhite_of_head y u hdw, ← hrev, List.reverse_reverse]

theorem hasPrefix_eq_true (s p : Str) (h : hasPrefix s p = true) : ∃ t, s = p ++ t := by
  unfold hasPrefix at h
  have := List.isPrefixOf_iff_prefix.mp h
  obtain ⟨t, ht⟩ := this
  exact ⟨t, ht.symm⟩

theorem istream_append_newline (a r : Str) :
    istream (a ++ '\n' :: r) = splitAll '\n' a ++ istream r := by
  unfold istream
  simp only [splitAll_append_cons]
  have hne := splitAll_ne_nil '\n' r
  rw [List.getLast?_append_of_ne_nil _ hne]
  split
  · rw [List.dropLast_append_of_ne_nil _ hne]
  · rfl

theorem istream_snoc_newline (a : Str) : istream (a ++ ['\n']) = splitAll '\n' a := by
  unfold istream
  simp [splitAll_append_cons, splitAll]

/-! ## Lemmas on the loops of the decoder -/

theorem seekLoop_skip {D : Type} (nf : Numeric D) (out : Outputs D) (pre rest : List Str)
    (h : ∀ l ∈ pre, trim l ≠ "BEGIN IONS".toList) :
    seekLoop nf out (pre ++ rest) = seekLoop nf out rest := by
  induction pre with
  | nil => rfl
  | cons x xs ih =>
    have hx : trim x ≠ "BEGIN IONS".toList := h x (by simp)
    have hxs : ∀ l ∈ xs, trim l ≠ "BEGIN IONS".toList :=
      fun l m => h l (List.mem_cons_of_mem _ m)
    rw [List.cons_append, seekLoop, if_neg hx, ih hxs]

theorem seekLoop_begin {D : Type} (nf : Numeric D) (out : Outputs D) (b : Str) (rest : List Str)
    (h : trim b = "BEGIN IONS".toList) :
    seekLoop nf out (b :: rest) = blockLoop nf out rest := by
  rw [seekLoop, if_pos h]

/-- `trim` is idempotent: the source trims `line` in place at its first test, so
every later `line.trim()` on the same line finds it trimmed already. -/
theorem trim_trim (s : Str) : trim (trim s) = trim s := by
  by_cases h : trim s = []
  · rw [h]; rfl
  · obtain ⟨c, t, hct⟩ := List.exists_cons_of_ne_nil h
    have hhead : isWhite c = false := by
      unfold trim at hct
      have h1 : (List.dropWhile isWhite (List.dropWhile isWhite s).reverse) = (c :: t).reverse := by
        rw [← hct, List.reverse_reverse]
      have hmem : c ∈ List.dropWhile isWhite s := by
        have : c ∈ (List.dropWhile isWhite s).reverse :=
          (List.dropWhile_sublist isWhite).subset (by rw [h1]; simp)
        simpa using this
      cases hdw : List.dropWhile isWhite s with
      | nil => rw [hdw] at hmem; simp at hmem
      | cons x xs =>
        have hx : isWhite x = false := by
          have := List.head_dropWhile_not isWhite s (by rw [hdw]; simp)
          simpa [hdw] using this
        rw [hdw] at hct
        have hlast : (x :: xs).reverse.getLast? = some x := by simp
        have hsuf : (List.dropWhile isWhite (x :: xs).reverse) <:+ (x :: xs).reverse :=
          List.dropWhile_suffix isWhite
        have hne : List.dropWhile isWhite (x :: xs).reverse ≠ [] := by
          intro h0; rw [h0] at hct; simp at hct
        have hl2 : (List.dropWhile isWhite (x :: xs).reverse).getLast? = some x := by
          obtain ⟨pre, hpre⟩ := hsuf
          have := congrArg List.getLast? hpre
          rw [List.getLast?_append_of_ne_nil _ hne, hlast] at this
          exact this
        have hc : (c :: t).head? = some x := by
          rw [← hct, List.head?_reverse]; exact hl2
        simp only [List.head?_cons, Option.some.injEq] at hc
        rw [hc]; exact hx
    have hlastw : ∃ d, (trim s).getLast? = some d ∧ isWhite d = false := by
      unfold trim
      cases hr : List.dropWhile isWhite (List.dropWhile isWhite s).reverse with
      | nil => unfold trim at h; rw [hr] at h; simp at h
      | cons y ys =>
        refine ⟨y, by simp, ?_⟩
        have := List.head_dropWhile_not isWhite (List.dropWhile isWhite s).reverse
          (by rw [hr]; simp)
        simpa [hr] using this
    obtain ⟨d, hd, hdw⟩ := hlastw
    exact trim_eq_self (trim s) c d (by rw [hct]; rfl) hhead hd hdw

theorem hasPrefix_cons_ne (c p : Char) (t ps : Str) (h : c ≠ p) :
    hasPrefix (c :: t) (p :: ps) = false := by
  have hp : (p == c) = false := by simpa using fun e : p = c => h e.symm
  simp [hasPrefix, List.isPrefixOf, hp]

theorem pepmassBranch_skip {D : Type} (nf : Numeric D) (line : Str) (out : Outputs D)
    (h : hasPrefix line "PEPMASS".toList = false) : pepmassBranch nf line out = .ok out := by
  unfold pepmassBranch; rw [h]; rfl

theorem chargeBranch_skip {D : Type} (nf : Numeric D) (line : Str) (out : Outputs D)
    (h : hasPrefix line "CHARGE".toList = false) : chargeBranch nf line out = .ok out := by
  unfold chargeBranch; rw [h]; rfl

theorem rtBranch_skip {D : Type} (nf : Numeric D) (line : Str) (out : Outputs D)
    (h : hasPrefix line "RTINSECONDS".toList = false) : rtBranch nf line out = .ok out := by
  unfold rtBranch; rw [h]; rfl

theorem titleBranch_skip {D : Type} (nf : Numeric D) (line : Str) (out : Outputs D)
    (h : hasPrefix line "TITLE".toList = false) : titleBranch nf line out = out := by
  unfold titleBranch; rw [h]; rfl

theorem headerLine_of_startsPeaks {D : Type} (nf : Numeric D) (line : Str) (out : Outputs D)
    (h : startsPeaks line = true) : headerLine nf line out = .ok out := by
  cases line with
  | nil => simp [startsPeaks] at h
  | cons c t =>
    simp only [startsPeaks] at h
    have hP : c ≠ 'P' := by intro e; subst e; revert h; decide
    have hC : c ≠ 'C' := by intro e; subst e; revert h; decide
    have hR : c ≠ 'R' := by intro e; subst e; revert h; decide
    have hT : c ≠ 'T' := by intro e; subst e; revert h; decide
    unfold headerLine
    rw [pepmassBranch_skip nf _ out (hasPrefix_cons_ne c 'P' t _ hP)]
    simp only
    rw [chargeBranch_skip nf _ out (hasPrefix_cons_ne c 'C' t _ hC)]
    simp only
    rw [rtBranch_skip nf _ out (hasPrefix_cons_ne c 'R' t _ hR)]
    simp only
    rw [titleBranch_skip nf _ out (hasPrefix_cons_ne c 'T' t _ hT)]

theorem headerLine_pepmass {D : Type} (nf : Numeric D) (line : Str) (out : Outputs D)
    (h : hasPrefix line "PEPMASS".toList = true) :
    headerLine nf line out = pepmassBranch nf line out ∧ startsPeaks line = false := by
  obtain ⟨t, rfl⟩ := hasPrefix_eq_true line _ h
  refine ⟨?_, rfl⟩
  unfold headerLine
  cases pepmassBranch nf ("PEPMASS".toList ++ t) out with
  | error e => rfl
  | ok o =>
    simp only
    rw [chargeBranch_skip nf ("PEPMASS".toList ++ t) o rfl]
    simp only
    rw [rtBranch_skip nf ("PEPMASS".toList ++ t) o rfl]
    simp only
    rw [titleBranch_skip nf ("PEPMASS".toList ++ t) o rfl]

theorem peakLoop_run {D : Type} (nf : Numeric D) (more : List Str) :
    ∀ (out : Outputs D) (p : Str) (pr : D × D) (ps : List (D × D)) (e : Str) (rest : List Str),
    peakLine nf p = .ok pr →
    List.Forall₂ (fun l q => peakLine nf (trim l) = .ok q) more ps →
    (∀ l ∈ more, trim l ≠ "END IONS".toList) →
    trim e = "END IONS".toList →
    peakLoop nf out p (more ++ e :: rest) =
      .ok (true, { out with spectrum := out.spectrum ++ pr :: ps }, rest) := by
  induction more with
  | nil =>
    intro out p pr ps e rest hp hall _ he
    cases hall
    simp [peakLoop, hp, he]
  | cons m ms ih =>
    intro out p pr ps e rest hp hall hne he
    cases hall with
    | cons hm hms =>
      rename_i q qs
      have hmne : trim m ≠ "END IONS".toList := hne m (by simp)
      have hrest : ∀ l ∈ ms, trim l ≠ "END IONS".toList :=
        fun l hl => hne l (List.mem_cons_of_mem _ hl)
      rw [List.cons_append, peakLoop]
      simp only [hp, if_neg hmne]
      rw [ih _ (trim m) q qs e rest hm hms hrest he]
      simp [List.append_assoc]

theorem peakLoop_no_end {D : Type} (nf : Numeric D) (tail : List Str) :
    ∀ (out : Outputs D) (p : Str), (∀ l ∈ tail, trim l ≠ "END IONS".toList) →
    ∃ e, peakLoop nf out p tail = .error e := by
  induction tail with
  | nil =>
    intro out p _
    unfold peakLoop
    cases peakLine nf p with
    | error e => exact ⟨e, rfl⟩
    | ok q => exact ⟨_, rfl⟩
  | cons m ms ih =>
    intro out p hne
    have hmne : trim m ≠ "END IONS".toList := hne m (by simp)
    have hrest : ∀ l ∈ ms, trim l ≠ "END IONS".toList :=
      fun l hl => hne l (List.mem_cons_of_mem _ hl)
    unfold peakLoop
    cases peakLine nf p with
    | error e => exact ⟨e, rfl⟩
    | ok q =>
      simp only [if_neg hmne]
      exact ih _ _ hrest

theorem blockLoop_header {D : Type} (nf : Numeric D) (hdr : List Str) :
    ∀ (out o : Outputs D) (rest : List Str),
    (∀ l ∈ hdr, startsPeaks (trim l) = false) →
    headerLines nf out hdr = .ok o →
    blockLoop nf out (hdr ++ rest) = blockLoop nf o rest := by
  induction hdr with
  | nil =>
    intro out o rest _ h
    simp only [headerLines, Except.ok.injEq] at h
    subst h; rfl
  | cons x xs ih =>
    intro out o rest hs h
    have hx : startsPeaks (trim x) = false := hs x (by simp)
    have hxs : ∀ l ∈ xs, startsPeaks (trim l) = false :=
      fun l hl => hs l (List.mem_cons_of_mem _ hl)
    rw [List.cons_append, blockLoop]
    unfold headerLines at h
    cases hh : headerLine nf (trim x) out with
    | error e => rw [hh] at h; cases h
    | ok o1 =>
      rw [hh] at h
      simp only [hx]
      exact ih o1 o rest hxs h

theorem blockLoop_peaks {D : Type} (nf : Numeric D) (out : Outputs D) (p : Str)
    (more : List Str) (e : Str) (rest : List Str) (ps : List (D × D))
    (hp : startsPeaks (trim p) = true)
    (hall : List.Forall₂ (fun l q => peakLine nf (trim l) = .ok q) (p :: more) ps)
    (hne : ∀ l ∈ more, trim l ≠ "END IONS".toList)
    (he : trim e = "END IONS".toList) :
    blockLoop nf out (p :: (more ++ e :: rest)) =
      .ok (true, { out with spectrum := out.spectrum ++ ps }, rest) := by
  cases hall with
  | cons h1 hrest =>
    rename_i q qs
    rw [blockLoop, headerLine_of_startsPeaks nf (trim p) out hp]
    simp only [hp, if_true]
    exact peakLoop_run nf more out (trim p) q qs e rest h1 hrest hne he

theorem pepmassBranch_spectrum {D : Type} (nf : Numeric D) (line : Str) (out o : Outputs D)
    (h : pepmassBranch nf line out = .ok o) : o.spectrum = out.spectrum := by
  unfold pepmassBranch at h
  repeat' split at h
  all_goals first | (cases h; rfl) | cases h

theorem chargeBranch_spectrum {D : Type} (nf : Numeric D) (line : Str) (out o : Outputs D)
    (h : chargeBranch nf line out = .ok o) : o.spectrum = out.spectrum := by
  unfold chargeBranch at h
  repeat' split at h
  all_goals first | (cases h; rfl) | cases h

theorem rtBranch_spectrum {D : Type} (nf : Numeric D) (line : Str) (out o : Outputs D)
    (h : rtBranch nf line out = .ok o) : o.spectrum = out.spectrum := by
  unfold rtBranch at h
  repeat' split at h
  all_goals first | (cases h; rfl) | cases h

theorem titleBranch_spectrum {D : Type} (nf : Numeric D) (line : Str) (out : Outputs D) :
    (titleBranch nf line out).spectrum = out.spectrum := by
  unfold titleBranch
  repeat' split
  all_goals rfl

theorem headerLine_spectrum {D : Type} (nf : Numeric D) (line : Str) (out o : Outputs D)
    (h : headerLine nf line out = .ok o) : o.spectrum = out.spectrum := by
  unfold headerLine at h
  cases h1 : pepmassBranch nf line out with
  | error e => rw [h1] at h; cases h
  | ok o1 =>
    rw [h1] at h
    simp only at h
    cases h2 : chargeBranch nf line o1 with
    | error e => rw [h2] at h; cases h
    | ok o2 =>
      rw [h2] at h
      simp only at h
      cases h3 : rtBranch nf line o2 with
      | error e => rw [h3] at h; cases h
      | ok o3 =>
        rw [h3] at h
        simp only [Except.ok.injEq] at h
        rw [← h, titleBranch_spectrum, rtBranch_spectrum nf line o2 o3 h3,
          chargeBranch_spectrum nf line o1 o2 h2, pepmassBranch_spectrum nf line out o1 h1]

theorem headerLines_spectrum {D : Type} (nf : Numeric D) (hdr : List Str) :
    ∀ (out o : Outputs D), headerLines nf out hdr = .ok o → o.spectrum = out.spectrum := by
  induction hdr with
  | nil =>
    intro out o h
    simp only [headerLines, Except.ok.injEq] at h
    rw [h]
  | cons x xs ih =>
    intro out o h
    unfold headerLines at h
    cases hh : headerLine nf (trim x) out with
    | error e => rw [hh] at h; cases h
    | ok o1 =>
      rw [hh] at h
      rw [ih o1 o h, headerLine_spectrum nf (trim x) out o1 hh]

theorem getNextSpectrum_of_isBlock {D : Type} (nf : Numeric D) (out data : Outputs D)
    (pre block rest : List Str) (hpre : ∀ l ∈ pre, trim l ≠ "BEGIN IONS".toList)
    (h : IsBlock nf out block data) :
    getNextSpectrum_ nf out (pre ++ (block ++ rest)) = .ok (true, data, rest) := by
  obtain ⟨b, hdr, p, more, e, o, ps, rfl, hb, hhdr, ho, hp, hall, hne, he, rfl⟩ := h
  have hsp : o.spectrum = [] := headerLines_spectrum nf hdr _ o ho
  have hshape : b :: (hdr ++ p :: (more ++ [e])) ++ rest = b :: (hdr ++ p :: (more ++ e :: rest)) := by
    simp
  rw [getNextSpectrum_, seekLoop_skip nf _ pre _ hpre, hshape, seekLoop_begin nf _ b _ hb,
    blockLoop_header nf hdr _ o _ hhdr ho, blockLoop_peaks nf o p more e rest ps hp hall hne he,
    hsp, List.nil_append]

theorem peakLoop_error {D : Type} (nf : Numeric D) (good : List Str) :
    ∀ (out : Outputs D) (p : Str) (pr : D × D) (qs : List (D × D)) (bad : Str) (tail : List Str)
      (err : Err),
    peakLine nf p = .ok pr →
    List.Forall₂ (fun l q => peakLine nf (trim l) = .ok q) good qs →
    (∀ l ∈ good, trim l ≠ "END IONS".toList) →
    trim bad ≠ "END IONS".toList →
    peakLine nf (trim bad) = .error err →
    peakLoop nf out p (good ++ bad :: tail) = .error err := by
  induction good with
  | nil =>
    intro out p pr qs bad tail err hp _ _ hb hbad
    rw [List.nil_append, peakLoop]
    simp only [hp, if_neg hb]
    cases tail with
    | nil => simp [peakLoop, hbad]
    | cons t ts => simp [peakLoop, hbad]
  | cons m ms ih =>
    intro out p pr qs bad tail err hp hall hne hb hbad
    cases hall with
    | cons hm hms =>
      rename_i q qs
      have hmne : trim m ≠ "END IONS".toList := hne m (by simp)
      have hrest : ∀ l ∈ ms, trim l ≠ "END IONS".toList :=
        fun l hl => hne l (List.mem_cons_of_mem _ hl)
      rw [List.cons_append, peakLoop]
      simp only [hp, if_neg hmne]
      exact ih _ (trim m) q qs bad tail err hm hms hrest hb hbad

theorem peakLoop_unclosed {D : Type} (nf : Numeric D) (tail : List Str) :
    ∀ (out : Outputs D) (p : Str) (pr : D × D) (qs : List (D × D)),
    peakLine nf p = .ok pr →
    List.Forall₂ (fun l q => peakLine nf (trim l) = .ok q) tail qs →
    (∀ l ∈ tail, trim l ≠ "END IONS".toList) →
    peakLoop nf out p tail =
      .error (.ParseError
        "Found \"BEGIN IONS\" but not the corresponding \"END IONS\"!".toList) := by
  induction tail with
  | nil =>
    intro out p pr qs hp _ _
    simp [peakLoop, hp]
  | cons m ms ih =>
    intro out p pr qs hp hall hne
    cases hall with
    | cons hm hms =>
      rename_i q qs
      have hmne : trim m ≠ "END IONS".toList := hne m (by simp)
      have hrest : ∀ l ∈ ms, trim l ≠ "END IONS".toList :=
        fun l hl => hne l (List.mem_cons_of_mem _ hl)
      rw [peakLoop]
      simp only [hp, if_neg hmne]
      exact ih _ (trim m) q qs hm hms hrest

theorem blockLoop_no_end {D : Type} (nf : Numeric D) (hdr : List Str) :
    ∀ (out : Outputs D) (p : Str) (tail : List Str),
    (∀ l ∈ hdr, startsPeaks (trim l) = false) →
    startsPeaks (trim p) = true →
    (∀ l ∈ tail, trim l ≠ "END IONS".toList) →
    ∃ e, blockLoop nf out (hdr ++ p :: tail) = .error e := by
  induction hdr with
  | nil =>
    intro out p tail _ hp htail
    rw [List.nil_append, blockLoop, headerLine_of_startsPeaks nf (trim p) out hp]
    simp only [hp, if_true]
    exact peakLoop_no_end nf tail out (trim p) htail
  | cons x xs ih =>
    intro out p tail hs hp htail
    have hx : startsPeaks (trim x) = false := hs x (by simp)
    have hxs : ∀ l ∈ xs, startsPeaks (trim l) = false :=
      fun l hl => hs l (List.mem_cons_of_mem _ hl)
    rw [List.cons_append, blockLoop]
    cases hh : headerLine nf (trim x) out with
    | error e => exact ⟨e, rfl⟩
    | ok o1 =>
      simp only [hx]
      exact ih o1 p tail hxs hp htail

/-! ## Lemmas on the text written by the encoder -/

theorem istream_line (l r : Str) (h : '\n' ∉ l) : istream (l ++ '\n' :: r) = l :: istream r := by
  rw [istream_append_newline, splitAll_of_not_mem '\n' l h]
  rfl

theorem istream_after_newline (a r : Str) :
    istream ((a ++ ['\n']) ++ r) = istream (a ++ ['\n']) ++ istream r := by
  rw [istream_snoc_newline, List.append_assoc, List.singleton_append, istream_append_newline]

theorem numberChar_ne (c d : Char) (hd : numberChar d = false) (h : numberChar c = true) :
    c ≠ d := by
  intro e
  subst e
  rw [h] at hd
  cases hd

theorem numberChar_not_white (c : Char) (h : numberChar c = true) : isWhite c = false := by
  have h1 := numberChar_ne c ' ' (by decide) h
  have h2 := numberChar_ne c '\t' (by decide) h
  have h3 := numberChar_ne c '\n' (by decide) h
  have h4 := numberChar_ne c '\r' (by decide) h
  simp [isWhite, h1, h2, h3, h4]

theorem isNumberText_ne_nil (s : Str) (h : isNumberText s = true) : s ≠ [] := by
  intro e
  subst e
  simp [isNumberText] at h

theorem isNumberText_mem (s : Str) (h : isNumberText s = true) (c : Char) (hc : c ∈ s) :
    numberChar c = true := by
  simp only [isNumberText, Bool.and_eq_true, List.all_eq_true] at h
  exact h.2 c hc

theorem isNumberText_not_mem (s : Str) (h : isNumberText s = true) (d : Char)
    (hd : numberChar d = false) : d ∉ s := by
  intro hm
  have := isNumberText_mem s h d hm
  rw [this] at hd
  cases hd

theorem substitute_of_not_mem (a b : Char) (s : Str) (h : a ∉ s) : substitute a b s = s := by
  unfold substitute
  induction s with
  | nil => rfl
  | cons x xs ih =>
    have hx : x ≠ a := fun e => h (by simp [e])
    have hxs : a ∉ xs := fun m => h (List.mem_cons_of_mem _ m)
    rw [List.map_cons, if_neg hx, ih hxs]

theorem trim_append_number (a s : Str) (c : Char) (t : Str) (ha : a = c :: t)
    (hc : isWhite c = false) (hs : isNumberText s = true) : trim (a ++ s) = a ++ s := by
  have hne := isNumberText_ne_nil s hs
  obtain ⟨d, hd⟩ : ∃ d, s.getLast? = some d := by
    cases h : s.getLast? with
    | none => exact absurd (List.getLast?_eq_none_iff.mp h) hne
    | some d => exact ⟨d, rfl⟩
  have hdm : d ∈ s := List.mem_of_getLast?_eq_some hd
  have hdw := numberChar_not_white d (isNumberText_mem s hs d hdm)
  apply trim_eq_self (a ++ s) c d
  · rw [ha]; rfl
  · exact hc
  · rw [List.getLast?_append_of_ne_nil _ hne]; exact hd
  · exact hdw

theorem trim_number (s : Str) (hs : isNumberText s = true) : trim s = s := by
  have hne := isNumberText_ne_nil s hs
  obtain ⟨c, t, hct⟩ := List.exists_cons_of_ne_nil hne
  obtain ⟨d, hd⟩ : ∃ d, s.getLast? = some d := by
    cases h : s.getLast? with
    | none => exact absurd (List.getLast?_eq_none_iff.mp h) hne
    | some d => exact ⟨d, rfl⟩
  have hdm : d ∈ s := List.mem_of_getLast?_eq_some hd
  apply trim_eq_self s c d
  · rw [hct]; rfl
  · exact numberChar_not_white c (isNumberText_mem s hs c (by rw [hct]; simp))
  · exact hd
  · exact numberChar_not_white d (isNumberText_mem s hs d hdm)

theorem split_number (s : Str) (hs : isNumberText s = true) : split ' ' s = [s] := by
  unfold split
  rw [if_neg (isNumberText_ne_nil s hs),
    splitAll_of_not_mem ' ' s (isNumberText_not_mem s hs ' ' (by decide))]

theorem split_pair (a b : Str) (ha : isNumberText a = true) (hb : isNumberText b = true) :
    split ' ' (a ++ ' ' :: b) = [a, b] := by
  unfold split
  rw [if_neg (by simp), splitAll_append_cons,
    splitAll_of_not_mem ' ' a (isNumberText_not_mem a ha ' ' (by decide)),
    splitAll_of_not_mem ' ' b (isNumberText_not_mem b hb ' ' (by decide))]
  rfl

theorem roundTrips_text {D : Type} [DecidableEq D] (nf : Numeric D) (x : D)
    (h : roundTrips nf x = true) : isNumberText (nf.precisionWrapper x) = true := by
  simp only [roundTrips, Bool.and_eq_true] at h
  exact h.1

theorem roundTrips_read {D : Type} [DecidableEq D] (nf : Numeric D) (x : D)
    (h : roundTrips nf x = true) : nf.toDouble (nf.precisionWrapper x) = some x := by
  simp only [roundTrips, Bool.and_eq_true, decide_eq_true_eq] at h
  exact h.2

theorem written_peak_trim (a b : Str) (ha : isNumberText a = true) (hb : isNumberText b = true) :
    trim (a ++ ' ' :: b) = a ++ ' ' :: b := by
  obtain ⟨c, t, hct⟩ := List.exists_cons_of_ne_nil (isNumberText_ne_nil a ha)
  have hc : isWhite c = false :=
    numberChar_not_white c (isNumberText_mem a ha c (by rw [hct]; simp))
  have := trim_append_number (a ++ [' ']) b c (t ++ [' ']) (by rw [hct]; rfl) hc hb
  simpa using this

theorem written_peak_read {D : Type} [DecidableEq D] (nf : Numeric D) (pk : D × D)
    (h1 : roundTrips nf pk.1 = true) (h2 : roundTrips nf pk.2 = true) :
    peakLine nf (trim (nf.precisionWrapper pk.1 ++ ' ' :: nf.precisionWrapper pk.2)) = .ok pk := by
  have ha := roundTrips_text nf pk.1 h1
  have hb := roundTrips_text nf pk.2 h2
  have htab : '\t' ∉ nf.precisionWrapper pk.1 ++ ' ' :: nf.precisionWrapper pk.2 := by
    intro hm
    rcases List.mem_append.mp hm with hm | hm
    · exact isNumberText_not_mem _ ha '\t' (by decide) hm
    · rcases List.mem_cons.mp hm with hm | hm
      · revert hm; decide
      · exact isNumberText_not_mem _ hb '\t' (by decide) hm
  rw [written_peak_trim _ _ ha hb]
  unfold peakLine
  simp only [substitute_of_not_mem _ _ _ htab, split_pair _ _ ha hb,
    roundTrips_read nf pk.1 h1, roundTrips_read nf pk.2 h2]

theorem written_peak_not_end (a b : Str) (ha : isNumberText a = true)
    (hb : isNumberText b = true) : trim (a ++ ' ' :: b) ≠ "END IONS".toList := by
  rw [written_peak_trim a b ha hb]
  obtain ⟨c, t, hct⟩ := List.exists_cons_of_ne_nil (isNumberText_ne_nil a ha)
  have hc : c ≠ 'E' := numberChar_ne c 'E' (by decide)
    (isNumberText_mem a ha c (by rw [hct]; simp))
  rw [hct]
  intro e
  have hh : some c = some 'E' := congrArg List.head? e
  exact hc (Option.some.inj hh)

theorem istream_peakLines {D : Type} [DecidableEq D] (nf : Numeric D) (peaks : List (D × D))
    (r : Str)
    (h : ∀ pk ∈ peaks, roundTrips nf pk.1 = true ∧ roundTrips nf pk.2 = true) :
    istream (peakLines nf peaks ++ r) =
      peaks.map (fun pk => nf.precisionWrapper pk.1 ++ ' ' :: nf.precisionWrapper pk.2) ++
        istream r := by
  induction peaks with
  | nil => rfl
  | cons pk pks ih =>
    have hpk := h pk (by simp)
    have hpks : ∀ q ∈ pks, roundTrips nf q.1 = true ∧ roundTrips nf q.2 = true :=
      fun q hq => h q (List.mem_cons_of_mem _ hq)
    have ha := roundTrips_text nf pk.1 hpk.1
    have hb := roundTrips_text nf pk.2 hpk.2
    have hnl : '\n' ∉ nf.precisionWrapper pk.1 ++ ' ' :: nf.precisionWrapper pk.2 := by
      intro hm
      rcases List.mem_append.mp hm with hm | hm
      · exact isNumberText_not_mem _ ha '\n' (by decide) hm
      · rcases List.mem_cons.mp hm with hm | hm
        · revert hm; decide
        · exact isNumberText_not_mem _ hb '\n' (by decide) hm
    have hshape : peakLines nf (pk :: pks) ++ r =
        (nf.precisionWrapper pk.1 ++ ' ' :: nf.precisionWrapper pk.2) ++
          '\n' :: (peakLines nf pks ++ r) := by
      simp [peakLines, List.flatMap_cons]
    rw [hshape, istream_line _ _ hnl, ih hpks]
    rfl

theorem written_peaks_read {D : Type} [DecidableEq D] (nf : Numeric D) (peaks : List (D × D))
    (h : ∀ pk ∈ peaks, roundTrips nf pk.1 = true ∧ roundTrips nf pk.2 = true) :
    List.Forall₂ (fun l q => peakLine nf (trim l) = .ok q)
      (peaks.map (fun pk => nf.precisionWrapper pk.1 ++ ' ' :: nf.precisionWrapper pk.2))
      peaks := by
  induction peaks with
  | nil => exact List.Forall₂.nil
  | cons pk pks ih =>
    have hpk := h pk (by simp)
    exact List.Forall₂.cons (written_peak_read nf pk hpk.1 hpk.2)
      (ih (fun q hq => h q (List.mem_cons_of_mem _ hq)))

theorem titleBranch_frame {D : Type} (nf : Numeric D) (line : Str) (out : Outputs D) :
    (titleBranch nf line out).charge = out.charge ∧
    (titleBranch nf line out).precursor_mz = out.precursor_mz ∧
    (titleBranch nf line out).precursor_int = out.precursor_int := by
  unfold titleBranch
  repeat' split
  all_goals exact ⟨rfl, rfl, rfl⟩

theorem written_title_read {D : Type} (nf : Numeric D) (x : Str) (out : Outputs D) :
    headerLine nf ("TITLE=".toList ++ x) out = .ok (titleBranch nf ("TITLE=".toList ++ x) out) ∧
    startsPeaks ("TITLE=".toList ++ x) = false := by
  refine ⟨?_, rfl⟩
  unfold headerLine
  rw [pepmassBranch_skip nf ("TITLE=".toList ++ x) out rfl]
  simp only
  rw [chargeBranch_skip nf ("TITLE=".toList ++ x) out rfl]
  simp only
  rw [rtBranch_skip nf ("TITLE=".toList ++ x) out rfl]

theorem written_pepmass_read {D : Type} [DecidableEq D] (nf : Numeric D) (mz : D)
    (out : Outputs D) (h : roundTrips nf mz = true) :
    headerLine nf ("PEPMASS=".toList ++ nf.precisionWrapper mz) out =
      .ok { out with precursor_mz := mz } ∧
    startsPeaks ("PEPMASS=".toList ++ nf.precisionWrapper mz) = false := by
  have ht := roundTrips_text nf mz h
  have hp : hasPrefix ("PEPMASS=".toList ++ nf.precisionWrapper mz) "PEPMASS".toList = true := rfl
  have hsub : substr 8 ("PEPMASS=".toList ++ nf.precisionWrapper mz) = nf.precisionWrapper mz :=
    rfl
  refine ⟨?_, rfl⟩
  rw [(headerLine_pepmass nf _ out hp).1, pepmassBranch, if_pos hp, hsub,
    substitute_of_not_mem _ _ _ (isNumberText_not_mem _ ht '\t' (by decide)),
    split_number _ ht]
  simp only [trim_number _ ht, roundTrips_read nf mz h]

theorem written_rt_read {D : Type} [DecidableEq D] (nf : Numeric D) (rt : D)
    (out : Outputs D) (h : roundTrips nf rt = true) :
    headerLine nf ("RTINSECONDS=".toList ++ nf.precisionWrapper rt) out =
      .ok { out with rt := rt } ∧
    startsPeaks ("RTINSECONDS=".toList ++ nf.precisionWrapper rt) = false := by
  have hp : hasPrefix ("RTINSECONDS=".toList ++ nf.precisionWrapper rt) "RTINSECONDS".toList
      = true := rfl
  have hsub : substr 12 ("RTINSECONDS=".toList ++ nf.precisionWrapper rt) =
      nf.precisionWrapper rt := rfl
  refine ⟨?_, rfl⟩
  unfold headerLine
  rw [pepmassBranch_skip nf ("RTINSECONDS=".toList ++ nf.precisionWrapper rt) out rfl]
  simp only
  rw [chargeBranch_skip nf ("RTINSECONDS=".toList ++ nf.precisionWrapper rt) out rfl]
  simp only
  rw [rtBranch, if_pos hp, hsub]
  simp only [roundTrips_read nf rt h]
  rw [titleBranch_skip nf ("RTINSECONDS=".toList ++ nf.precisionWrapper rt) _ rfl]

theorem written_header_read {D : Type} [DecidableEq D] (nf : Numeric D) (mz rt : D)
    (out : Outputs D) (hmz : roundTrips nf mz = true) (hrt : roundTrips nf rt = true) :
    (∀ l ∈ ["TITLE=".toList ++ (nf.precisionWrapper mz ++ "_".toList ++ nf.precisionWrapper rt),
            "PEPMASS=".toList ++ nf.precisionWrapper mz,
            "RTINSECONDS=".toList ++ nf.precisionWrapper rt], startsPeaks (trim l) = false) ∧
    ∃ o : Outputs D,
      headerLines nf out
        ["TITLE=".toList ++ (nf.precisionWrapper mz ++ "_".toList ++ nf.precisionWrapper rt),
         "PEPMASS=".toList ++ nf.precisionWrapper mz,
         "RTINSECONDS=".toList ++ nf.precisionWrapper rt] = .ok o ∧
      o.precursor_mz = mz ∧ o.rt = rt := by
  have htm := roundTrips_text nf mz hmz
  have htr := roundTrips_text nf rt hrt
  have e1 : trim ("TITLE=".toList ++ (nf.precisionWrapper mz ++ "_".toList ++
      nf.precisionWrapper rt)) =
      "TITLE=".toList ++ (nf.precisionWrapper mz ++ "_".toList ++ nf.precisionWrapper rt) := by
    have := trim_append_number ("TITLE=".toList ++ (nf.precisionWrapper mz ++ "_".toList))
      (nf.precisionWrapper rt) 'T' ("ITLE=".toList ++ (nf.precisionWrapper mz ++ "_".toList))
      rfl (by decide) htr
    simpa [List.append_assoc] using this
  have e2 : trim ("PEPMASS=".toList ++ nf.precisionWrapper mz) =
      "PEPMASS=".toList ++ nf.precisionWrapper mz :=
    trim_append_number "PEPMASS=".toList _ 'P' "EPMASS=".toList rfl (by decide) htm
  have e3 : trim ("RTINSECONDS=".toList ++ nf.precisionWrapper rt) =
      "RTINSECONDS=".toList ++ nf.precisionWrapper rt :=
    trim_append_number "RTINSECONDS=".toList _ 'R' "TINSECONDS=".toList rfl (by decide) htr
  constructor
  · intro l hl
    simp only [List.mem_cons, List.mem_singleton, List.not_mem_nil, or_false] at hl
    rcases hl with rfl | rfl | rfl
    · rw [e1]; rfl
    · rw [e2]; rfl
    · rw [e3]; rfl
  · refine ⟨{ ({ titleBranch nf ("TITLE=".toList ++ (nf.precisionWrapper mz ++ "_".toList ++
      nf.precisionWrapper rt)) out with precursor_mz := mz } : Outputs D) with rt := rt },
      ?_, rfl, rfl⟩
    simp only [headerLines, e1, e2, e3, (written_title_read nf _ out).1,
      (written_pepmass_read nf mz _ hmz).1, (written_rt_read nf rt _ hrt).1]

/-! ## Claims -/

/-- C8. On a stream without a line that trims to `BEGIN IONS` (the empty stream
included) `getNextSpectrum_` returns `false` without raising, leaves no line
unread, and its outputs hold an empty peak list and charge, precursor m/z and
precursor intensity 0. -/
theorem C8_no_more_spectra {D : Type} (nf : Numeric D) (out : Outputs D) (is : List Str)
    (h : ∀ l ∈ is, trim l ≠ "BEGIN IONS".toList) :
    ∃ res : Outputs D, getNextSpectrum_ nf out is = .ok (false, res, []) ∧
      res.spectrum = [] ∧ res.charge = 0 ∧ res.precursor_mz = nf.zero ∧
      res.precursor_int = nf.zero := by
  refine ⟨resetOutputs nf out, ?_, rfl, rfl, rfl, rfl⟩
  have := seekLoop_skip nf (resetOutputs nf out) is [] h
  rw [List.append_nil] at this
  rw [getNextSpectrum_, this]
  rfl

/-- Witness of C8: a stream of three lines, none of them `BEGIN IONS`. -/
theorem C8_no_more_spectra_witness :
    (∀ l ∈ lines ["PEPMASS=500.25", "1 2", "END IONS"], trim l ≠ "BEGIN IONS".toList) ∧
    ∃ res : Outputs Int,
      getNextSpectrum_ milli ⟨[(1, 1)], 3, 7, 7, 7, "t".toList⟩
        (lines ["PEPMASS=500.25", "1 2", "END IONS"]) = .ok (false, res, []) ∧
      res.spectrum = [] ∧ res.charge = 0 ∧ res.precursor_mz = milli.zero ∧
      res.precursor_int = milli.zero :=
  ⟨by decide, C8_no_more_spectra milli _ _ (by decide)⟩

/-! ### Charge list -/

theorem showInt_of_pos (c : Int) (h : c > 0) : showInt c = showNat c.natAbs := by
  unfold showInt
  rw [if_neg (by omega)]
  congr 1
  omega

theorem showInt_neg_of_nonpos (c : Int) (h : ¬ c > 0) (hlo : -2147483648 < c) :
    showInt (wrapInt (-1 * c)) = showNat c.natAbs := by
  have hw : wrapInt (-1 * c) = -c := by unfold wrapInt; omega
  rw [hw]
  unfold showInt
  rw [if_neg (by omega)]
  congr 1
  omega

theorem chargesLoop_after_first (size : Nat) (cs : List Int) (i : Nat) (hi : 0 < i)
    (hsize : i + cs.length = size) (hlo : ∀ c ∈ cs, -2147483648 < c) :
    chargesLoop size i cs = chargeEntriesAfterFirst cs := by
  induction cs generalizing i with
  | nil => rfl
  | cons c cs ih =>
    have hc : -2147483648 < c := hlo c (by simp)
    have hcs : ∀ d ∈ cs, -2147483648 < d := fun d m => hlo d (List.mem_cons_of_mem _ m)
    simp only [List.length_cons] at hsize
    have hrec := ih (i + 1) (by omega) (by omega) hcs
    rw [chargesLoop, hrec, if_neg (by omega)]
    cases cs with
    | nil =>
      simp only [List.length_nil] at hsize
      rw [if_neg (by omega)]
      by_cases hp : c > 0
      · rw [if_pos hp, showInt_of_pos c hp]
        simp [hp, chargeEntriesAfterFirst, chargeEntry]
      · rw [if_neg hp, showInt_neg_of_nonpos c hp hc]
        simp [hp, chargeEntriesAfterFirst, chargeEntry]
    | cons d ds =>
      simp only [List.length_cons] at hsize
      rw [if_pos (by omega)]
      by_cases hp : c > 0
      · rw [if_pos hp, showInt_of_pos c hp]
        simp [hp, chargeEntriesAfterFirst, chargeEntry]
      · rw [if_neg hp, showInt_neg_of_nonpos c hp hc]
        simp [hp, chargeEntriesAfterFirst, chargeEntry]

theorem chargesLoop_eq_render (cs : List Int) (hlo : ∀ c ∈ cs, -2147483648 < c) :
    chargesLoop cs.length 0 cs = renderCharges cs := by
  cases cs with
  | nil => rfl
  | cons c cs =>
    have hc : -2147483648 < c := hlo c (by simp)
    have hcs : ∀ d ∈ cs, -2147483648 < d := fun d m => hlo d (List.mem_cons_of_mem _ m)
    rw [chargesLoop, chargesLoop_after_first _ cs 1 (by omega) (by simp; omega) hcs, if_pos rfl]
    by_cases hp : c > 0
    · rw [if_pos hp, showInt_of_pos c hp]
      simp [hp, renderCharges, chargeEntry]
    · rw [if_neg hp, showInt_neg_of_nonpos c hp hc]
      simp [hp, renderCharges, chargeEntry]

/-- C3, counterexample. For the charges -2147483648 and 5 the entry of the
least `Int` is not its unsigned magnitude followed by `-`: the product
`-1 * charges[i]` does not fit the `Int` and comes out as -2147483648 again, so
`setCharges` stores "-2147483648- and 5+", while the rendering in the words of
the claim is "2147483648- and 5+". -/
theorem C3_least_int_keeps_sign :
    (setCharges (defaults []) [-2147483648, 5]).2 = [-2147483648, 5] ∧
    (setCharges (defaults []) [-2147483648, 5]).1.charges_ = "-2147483648- and 5+".toList ∧
    renderCharges (setCharges (defaults []) [-2147483648, 5]).2 = "2147483648- and 5+".toList ∧
    (setCharges (defaults []) [-2147483648, 5]).1.charges_ ≠
      renderCharges (setCharges (defaults []) [-2147483648, 5]).2 :=
  ⟨by decide, by decide, by decide, by decide⟩

/-- C3, amended. For every list of `Int` charges whose negations are representable
(every charge is above the least `Int`), `setCharges` sorts the caller's list
ascending (the result is sorted and a permutation of the input) and stores the
rendering of the sorted list: one entry per charge, the unsigned magnitude
followed by `+` for a positive charge and `-` otherwise, entries separated by
", " and the last one, when there are at least two, preceded by " and ". The
list 2, -3, 4 renders as "3-, 2+ and 4+". -/
theorem C3_setCharges_rendering {D : Type} (self : MascotInfile D) (charges : List Int)
    (hlo : ∀ c ∈ charges, -2147483648 < c) :
    List.Sorted (fun a b => a ≤ b) (setCharges self charges).2 ∧
    List.Perm (setCharges self charges).2 charges ∧
    (setCharges self charges).1.charges_ = renderCharges (setCharges self charges).2 ∧
    (setCharges self [2, -3, 4]).1.charges_ = "3-, 2+ and 4+".toList := by
  refine ⟨?_, ?_, ?_, ?_⟩
  · exact List.sorted_insertionSort (fun a b : Int => a ≤ b) charges
  · exact List.perm_insertionSort (fun a b : Int => a ≤ b) charges
  · show chargesLoop (sortCharges charges).length 0 (sortCharges charges) = _
    apply chargesLoop_eq_render
    intro c hc
    have hp : List.Perm (sortCharges charges) charges :=
      List.perm_insertionSort (fun a b : Int => a ≤ b) charges
    exact hlo c (hp.mem_iff.mp hc)
  · show chargesLoop (sortCharges [2, -3, 4]).length 0 (sortCharges [2, -3, 4]) = _
    decide

/-- Witness of C3 (amended) at the charges 2, -3, 4 and 1. -/
theorem C3_setCharges_rendering_witness :
    (∀ c ∈ [2, -3, 4, 1], -2147483648 < (c : Int)) ∧
    (setCharges (defaults []) [2, -3, 4, 1]).2 = [-3, 1, 2, 4] ∧
    (setCharges (defaults []) [2, -3, 4, 1]).1.charges_ = "3-, 1+, 2+ and 4+".toList :=
  ⟨by decide, by decide,
    ((C3_setCharges_rendering (defaults []) [2, -3, 4, 1] (by decide)).2.2.1).trans (by decide)⟩

/-! ### Header -/

theorem renderFields_append {D : Type} (self : MascotInfile D) (name : Str) (values : List Str)
    (rest : List (Str × Str)) :
    renderFields self true (values.map (fun it => (name, it)) ++ rest) =
      values.flatMap (fun it => writeParameterHeader_ self name true ++ it) ++
        renderFields self true rest := by
  induction values with
  | nil => rfl
  | cons v vs ih =>
    rw [List.map_cons, List.cons_append, renderFields, ih, List.flatMap_cons]
    simp only [List.append_assoc]

/-- C2. For every parameter set the text written by `writeHeader_` is the
sequence of fields, each introduced by `writeParameterHeader_` with its name and
followed by its value, whose names are: `COM` exactly when the search title is
not empty, then USERNAME, FORMAT, TOLU, ITOLU, FORMVER, DB, SEARCH, REPORT, CLE,
MASS, one MODS per fixed modification, one IT_MODS per variable modification,
INSTRUMENT, PFA, TOL, ITOL, TAXONOMY, CHARGE. -/
theorem C2_header_field_order {D : Type} (nf : Numeric D) (self : MascotInfile D) :
    writeHeader_ nf self = renderFields self false (headerFields nf self) ∧
    (headerFields nf self).map Prod.fst =
      (if self.search_title_ ≠ [] then ["COM".toList] else []) ++
      ["USERNAME".toList, "FORMAT".toList, "TOLU".toList, "ITOLU".toList, "FORMVER".toList,
       "DB".toList, "SEARCH".toList, "REPORT".toList, "CLE".toList, "MASS".toList] ++
      self.mods_.map (fun _ => "MODS".toList) ++
      self.variable_mods_.map (fun _ => "IT_MODS".toList) ++
      ["INSTRUMENT".toList, "PFA".toList, "TOL".toList, "ITOL".toList, "TAXONOMY".toList,
       "CHARGE".toList] := by
  constructor
  · unfold writeHeader_ headerFields
    by_cases ht : self.search_title_ ≠ []
    · simp only [if_pos ht, List.cons_append, List.nil_append, List.singleton_append,
        renderFields, List.append_assoc, renderFields_append, List.append_nil]
    · simp only [if_neg ht, List.cons_append, List.nil_append, List.singleton_append,
        renderFields, List.append_assoc, renderFields_append, List.append_nil]
  · unfold headerFields
    by_cases ht : self.search_title_ ≠ []
    · simp [ht, Function.comp_def]
    · simp [ht, Function.comp_def]

/-! ### Decoder: field lines -/

/-- C4. A line inside a block that has the prefix `PEPMASS` is decided by the
fields of its remainder after eight characters, tabs replaced by blanks and
split at blanks: one field sets the precursor m/z and nothing else, so that the
precursor intensity keeps the 0 it has since the start of the call; two fields
set precursor m/z and precursor intensity; any other number of fields raises
the `ParseError` "cannot parse PEPMASS". The scan then goes on with the next
line. -/
theorem C4_pepmass_fields {D : Type} (nf : Numeric D) (out : Outputs D) (raw : Str)
    (rest : List Str) (hp : hasPrefix (trim raw) "PEPMASS".toList = true) :
    (∀ a mz, split ' ' (substitute '\t' ' ' (substr 8 (trim raw))) = [a] →
      nf.toDouble (trim a) = some mz →
      blockLoop nf out (raw :: rest) = blockLoop nf { out with precursor_mz := mz } rest ∧
      ∀ (out0 : Outputs D) (b : Str), trim b = "BEGIN IONS".toList →
        getNextSpectrum_ nf out0 (b :: raw :: rest) =
          blockLoop nf ⟨[], 0, mz, nf.zero, out0.rt, out0.title⟩ rest) ∧
    (∀ a b mz int, split ' ' (substitute '\t' ' ' (substr 8 (trim raw))) = [a, b] →
      nf.toDouble (trim a) = some mz → nf.toDouble (trim b) = some int →
      blockLoop nf out (raw :: rest) =
        blockLoop nf { out with precursor_mz := mz, precursor_int := int } rest) ∧
    ((split ' ' (substitute '\t' ' ' (substr 8 (trim raw)))).length ≠ 1 →
      (split ' ' (substitute '\t' ' ' (substr 8 (trim raw)))).length ≠ 2 →
      blockLoop nf out (raw :: rest) =
        .error (.ParseError ("cannot parse PEPMASS: ".toList ++ trim raw))) := by
  have hstep : ∀ o : Outputs D, blockLoop nf o (raw :: rest) =
      match pepmassBranch nf (trim raw) o with
      | .error e => .error e
      | .ok o1 => blockLoop nf o1 rest := by
    intro o
    rw [blockLoop, (headerLine_pepmass nf (trim raw) o hp).1, (headerLine_pepmass nf (trim raw) o hp).2]
    cases pepmassBranch nf (trim raw) o <;> simp
  refine ⟨?_, ?_, ?_⟩
  · intro a mz htoks hmz
    have hone : ∀ o : Outputs D, blockLoop nf o (raw :: rest) =
        blockLoop nf { o with precursor_mz := mz } rest := by
      intro o
      rw [hstep o, pepmassBranch, if_pos hp, htoks]
      simp only [hmz]
    refine ⟨hone out, ?_⟩
    intro out0 b hb
    rw [getNextSpectrum_, seekLoop_begin nf _ b _ hb, hone]
    rfl
  · intro a b mz int htoks hmz hint
    rw [hstep out, pepmassBranch, if_pos hp, htoks]
    simp only [hmz, hint]
  · intro h1 h2
    rw [hstep out, pepmassBranch, if_pos hp]
    generalize split ' ' (substitute '\t' ' ' (substr 8 (trim raw))) = toks at h1 h2
    rcases toks with _ | ⟨a, _ | ⟨b, _ | ⟨c, l⟩⟩⟩
    · rfl
    · simp at h1
    · simp at h2
    · rfl

/-- Witness of C4: `PEPMASS=500.25` sets the precursor m/z only, `PEPMASS=500.25
1000.0` sets both values, and `PEPMASS=1 2 3` raises the parse error. -/
theorem C4_pepmass_fields_witness :
    getNextSpectrum_ milli ⟨[], 0, 0, 0, 0, []⟩
      (lines ["BEGIN IONS", "PEPMASS=500.25", "1 2", "END IONS"]) =
      .ok (true, ⟨[(1000, 2000)], 0, 500250, 0, 0, []⟩, []) ∧
    blockLoop milli ⟨[], 0, 0, 0, 0, []⟩ (lines ["PEPMASS=500.25 1000.0", "1 2", "END IONS"]) =
      .ok (true, ⟨[(1000, 2000)], 0, 500250, 1000000, 0, []⟩, []) ∧
    blockLoop milli ⟨[], 0, 0, 0, 0, []⟩ (lines ["PEPMASS=1 2 3", "1 2", "END IONS"]) =
      .error (.ParseError "cannot parse PEPMASS: PEPMASS=1 2 3".toList) :=
  ⟨(((C4_pepmass_fields milli ⟨[], 0, 0, 0, 0, []⟩ "PEPMASS=500.25".toList
        (lines ["1 2", "END IONS"]) (by decide)).1 "500.25".toList 500250 (by decide)
        (by decide)).2 ⟨[], 0, 0, 0, 0, []⟩ "BEGIN IONS".toList (by decide)).trans (by decide),
   ((C4_pepmass_fields milli ⟨[], 0, 0, 0, 0, []⟩ "PEPMASS=500.25 1000.0".toList
        (lines ["1 2", "END IONS"]) (by decide)).2.1 "500.25".toList "1000.0".toList 500250
        1000000 (by decide) (by decide) (by decide)).trans (by decide),
   (C4_pepmass_fields milli ⟨[], 0, 0, 0, 0, []⟩ "PEPMASS=1 2 3".toList
        (lines ["1 2", "END IONS"]) (by decide)).2.2 (by decide) (by decide)⟩

/-! ### Decoder: peak lines -/

/-- C5. In the peak region of a block, which starts at the first line whose
trimmed text begins with a digit and ends at `END IONS`, every trimmed line has
its tabs replaced by blanks and is split at blanks: two fields give the pair of
the two numbers, three fields give the pair of the first two and ignore the
third, any other number of fields raises a `ParseError` naming the line. The
call returns `true` with the pairs appended to the peak list in the order of the
lines, and an exception raised by a line of the region leaves the call. For a
complete block the peak list returned by `getNextSpectrum_` is the list of these
pairs. -/
theorem C5_peak_lines {D : Type} (nf : Numeric D) :
    (∀ (line a b : Str) (mz int : D), split ' ' (substitute '\t' ' ' line) = [a, b] →
      nf.toDouble a = some mz → nf.toDouble b = some int → peakLine nf line = .ok (mz, int)) ∧
    (∀ (line a b c : Str) (mz int : D), split ' ' (substitute '\t' ' ' line) = [a, b, c] →
      nf.toDouble a = some mz → nf.toDouble b = some int → peakLine nf line = .ok (mz, int)) ∧
    (∀ (line : Str), (split ' ' (substitute '\t' ' ' line)).length ≠ 2 →
      (split ' ' (substitute '\t' ' ' line)).length ≠ 3 →
      peakLine nf line = .error (.ParseError ("the line (".toList ++ substitute '\t' ' ' line ++
        ") should contain m/z and intensity value separated by whitespace!".toList))) ∧
    (∀ (out : Outputs D) (p : Str) (more : List Str) (e : Str) (rest : List Str)
      (ps : List (D × D)),
      startsPeaks (trim p) = true →
      List.Forall₂ (fun l q => peakLine nf (trim l) = .ok q) (p :: more) ps →
      (∀ l ∈ more, trim l ≠ "END IONS".toList) →
      trim e = "END IONS".toList →
      blockLoop nf out (p :: (more ++ e :: rest)) =
        .ok (true, { out with spectrum := out.spectrum ++ ps }, rest)) ∧
    (∀ (out : Outputs D) (p : Str) (good : List Str) (bad : Str) (tail : List Str)
      (ps : List (D × D)) (err : Err),
      startsPeaks (trim p) = true →
      List.Forall₂ (fun l q => peakLine nf (trim l) = .ok q) (p :: good) ps →
      (∀ l ∈ good, trim l ≠ "END IONS".toList) →
      trim bad ≠ "END IONS".toList →
      peakLine nf (trim bad) = .error err →
      blockLoop nf out (p :: (good ++ bad :: tail)) = .error err) ∧
    (∀ (out : Outputs D) (p : Str) (tail : List Str) (err : Err),
      startsPeaks (trim p) = true →
      peakLine nf (trim p) = .error err →
      blockLoop nf out (p :: tail) = .error err) ∧
    (∀ (out data : Outputs D) (pre block rest : List Str),
      (∀ l ∈ pre, trim l ≠ "BEGIN IONS".toList) →
      IsBlock nf out block data →
      getNextSpectrum_ nf out (pre ++ (block ++ rest)) = .ok (true, data, rest)) := by
  refine ⟨?_, ?_, ?_, ?_, ?_, ?_, getNextSpectrum_of_isBlock nf⟩
  · intro line a b mz int htoks hmz hint
    simp only [peakLine, htoks, hmz, hint]
  · intro line a b c mz int htoks hmz hint
    simp only [peakLine, htoks, hmz, hint]
  · intro line h2 h3
    unfold peakLine
    simp only
    generalize split ' ' (substitute '\t' ' ' line) = toks at h2 h3
    rcases toks with _ | ⟨a, _ | ⟨b, _ | ⟨c, _ | ⟨d, l⟩⟩⟩⟩
    · rfl
    · rfl
    · simp at h2
    · simp at h3
    · rfl
  · intro out p more e rest ps hp hall hne he
    exact blockLoop_peaks nf out p more e rest ps hp hall hne he
  · intro out p good bad tail ps err hp hall hne hb hbad
    cases hall with
    | cons h1 hrest =>
      rename_i q qs
      rw [blockLoop, headerLine_of_startsPeaks nf (trim p) out hp]
      simp only [hp, if_true]
      exact peakLoop_error nf good out (trim p) q qs bad tail err h1 hrest hne hb hbad
  · intro out p tail err hp hbad
    rw [blockLoop, headerLine_of_startsPeaks nf (trim p) out hp]
    simp only [hp, if_true]
    cases tail with
    | nil => simp [peakLoop, hbad]
    | cons t ts => simp [peakLoop, hbad]

/-- Witness of C5: a region of a two-field line and a three-field line gives
both pairs in order; a one-field line after the first peak raises the parse
error. -/
theorem C5_peak_lines_witness :
    blockLoop milli ⟨[], 0, 0, 0, 0, []⟩ (lines ["1 2", "3.5\t4 x", " END IONS", "next"]) =
      .ok (true, ⟨[(1000, 2000), (3500, 4000)], 0, 0, 0, 0, []⟩, lines ["next"]) ∧
    blockLoop milli ⟨[], 0, 0, 0, 0, []⟩ (lines ["1 2", "7", "END IONS"]) =
      .error (.ParseError
        "the line (7) should contain m/z and intensity value separated by whitespace!".toList) :=
  ⟨((C5_peak_lines milli).2.2.2.1 ⟨[], 0, 0, 0, 0, []⟩ "1 2".toList (lines ["3.5\t4 x"])
      " END IONS".toList (lines ["next"]) [(1000, 2000), (3500, 4000)] (by decide)
      (List.Forall₂.cons (by decide) (List.Forall₂.cons (by decide) List.Forall₂.nil))
      (by decide) (by decide)).trans (by decide),
   (C5_peak_lines milli).2.2.2.2.1 ⟨[], 0, 0, 0, 0, []⟩ "1 2".toList [] "7".toList
      (lines ["END IONS"]) [(1000, 2000)] _ (by decide)
      (List.Forall₂.cons (by decide) List.Forall₂.nil) (by decide) (by decide)
      (((C5_peak_lines milli).2.2.1 (trim "7".toList) (by decide) (by decide)).trans
        (by decide))⟩

/-- C6. When a line that trims to `BEGIN IONS` is followed by a line whose
trimmed text begins with a digit (a peak line) and no line after the first such
line trims to `END IONS`, `getNextSpectrum_` ends with an exception and never
returns; when moreover the header lines raise nothing and all peak lines are
well formed, the exception is the `ParseError` for the missing `END IONS`. -/
theorem C6_missing_end_ions {D : Type} (nf : Numeric D) (out : Outputs D) (pre : List Str)
    (b : Str) (hdr : List Str) (p : Str) (tail : List Str)
    (hpre : ∀ l ∈ pre, trim l ≠ "BEGIN IONS".toList)
    (hb : trim b = "BEGIN IONS".toList)
    (hhdr : ∀ l ∈ hdr, startsPeaks (trim l) = false)
    (hp : startsPeaks (trim p) = true)
    (htail : ∀ l ∈ tail, trim l ≠ "END IONS".toList) :
    (∃ e, getNextSpectrum_ nf out (pre ++ b :: (hdr ++ p :: tail)) = .error e) ∧
    (∀ (o : Outputs D) (ps : List (D × D)),
      headerLines nf (resetOutputs nf out) hdr = .ok o →
      List.Forall₂ (fun l q => peakLine nf (trim l) = .ok q) (p :: tail) ps →
      getNextSpectrum_ nf out (pre ++ b :: (hdr ++ p :: tail)) =
        .error (.ParseError
          "Found \"BEGIN IONS\" but not the corresponding \"END IONS\"!".toList)) := by
  have hstart : getNextSpectrum_ nf out (pre ++ b :: (hdr ++ p :: tail)) =
      blockLoop nf (resetOutputs nf out) (hdr ++ p :: tail) := by
    rw [getNextSpectrum_, seekLoop_skip nf _ pre _ hpre, seekLoop_begin nf _ b _ hb]
  rw [hstart]
  refine ⟨blockLoop_no_end nf hdr _ p tail hhdr hp htail, ?_⟩
  intro o ps ho hall
  cases hall with
  | cons h1 hrest =>
    rename_i q qs
    rw [blockLoop_header nf hdr _ o _ hhdr ho, blockLoop,
      headerLine_of_startsPeaks nf (trim p) o hp]
    simp only [hp, if_true]
    exact peakLoop_unclosed nf tail o (trim p) q qs h1 hrest htail

/-- Witness of C6: a block with a title and two peak lines, then the end of the
stream. -/
theorem C6_missing_end_ions_witness :
    getNextSpectrum_ milli ⟨[], 0, 0, 0, 0, []⟩
      (lines ["junk", "BEGIN IONS", "TITLE=a", "PEPMASS=500.25", "1 2", "3 4"]) =
      .error (.ParseError
        "Found \"BEGIN IONS\" but not the corresponding \"END IONS\"!".toList) :=
  (C6_missing_end_ions milli ⟨[], 0, 0, 0, 0, []⟩ (lines ["junk"]) "BEGIN IONS".toList
    (lines ["TITLE=a", "PEPMASS=500.25"]) "1 2".toList (lines ["3 4"])
    (by decide) (by decide) (by decide) (by decide) (by decide)).2
    ⟨[], 0, 500250, 0, 0, "a".toList⟩ [(1000, 2000), (3000, 4000)] (by decide)
    (List.Forall₂.cons (by decide) (List.Forall₂.cons (by decide) List.Forall₂.nil))

/-! ### Decoder: several blocks, state between calls -/

/-- C7, counterexample. The stream holds two consecutive `BEGIN IONS` /
`END IONS` blocks, the first one without peak line. The first call returns
`true` with the peak of the second block and reads the whole stream; the second
call returns `false`. -/
theorem C7_block_without_peaks :
    getNextSpectrum_ milli ⟨[], 0, 0, 0, 0, []⟩
      (lines ["BEGIN IONS", "PEPMASS=1", "END IONS",
              "BEGIN IONS", "PEPMASS=2", "5 6", "END IONS"]) =
      .ok (true, ⟨[(5000, 6000)], 0, 2000, 0, 0, []⟩, []) ∧
    getNextSpectrum_ milli ⟨[(5000, 6000)], 0, 2000, 0, 0, []⟩ [] =
      .ok (false, ⟨[], 0, 0, 0, 0, []⟩, []) := by
  decide

/-- C7, amended. For a stream made of two consecutive complete blocks, each with
at least one peak line and without malformed line, the first call returns `true`
with the data of the first block and leaves the second block unread, the second
call returns `true` with the data of the second block and leaves nothing unread,
and the third call returns `false`. -/
theorem C7_two_blocks {D : Type} (nf : Numeric D) (out1 out2 out3 data1 data2 : Outputs D)
    (block1 block2 : List Str)
    (h1 : IsBlock nf out1 block1 data1) (h2 : IsBlock nf out2 block2 data2) :
    getNextSpectrum_ nf out1 (block1 ++ block2) = .ok (true, data1, block2) ∧
    getNextSpectrum_ nf out2 block2 = .ok (true, data2, []) ∧
    getNextSpectrum_ nf out3 [] = .ok (false, resetOutputs nf out3, []) := by
  refine ⟨?_, ?_, rfl⟩
  · exact getNextSpectrum_of_isBlock nf out1 data1 [] block1 block2 (by simp) h1
  · have := getNextSpectrum_of_isBlock nf out2 data2 [] block2 [] (by simp) h2
    simpa using this

/-- Witness of C7 (amended): two blocks with one and two peak lines; the outputs
of each call are handed to the next one. -/
theorem C7_two_blocks_witness :
    getNextSpectrum_ milli ⟨[], 0, 0, 0, 0, []⟩
      (lines ["BEGIN IONS", "PEPMASS=1", "5 6", "END IONS"] ++
       lines ["BEGIN IONS", "PEPMASS=2", "7 8", "9 10", "END IONS"]) =
      .ok (true, ⟨[(5000, 6000)], 0, 1000, 0, 0, []⟩,
        lines ["BEGIN IONS", "PEPMASS=2", "7 8", "9 10", "END IONS"]) ∧
    getNextSpectrum_ milli ⟨[(5000, 6000)], 0, 1000, 0, 0, []⟩
      (lines ["BEGIN IONS", "PEPMASS=2", "7 8", "9 10", "END IONS"]) =
      .ok (true, ⟨[(7000, 8000), (9000, 10000)], 0, 2000, 0, 0, []⟩, []) ∧
    getNextSpectrum_ milli ⟨[(7000, 8000), (9000, 10000)], 0, 2000, 0, 0, []⟩ [] =
      .ok (false, resetOutputs milli ⟨[(7000, 8000), (9000, 10000)], 0, 2000, 0, 0, []⟩, []) :=
  C7_two_blocks milli _ _ _ _ _ _ _
    ⟨"BEGIN IONS".toList, lines ["PEPMASS=1"], "5 6".toList, [], "END IONS".toList,
      ⟨[], 0, 1000, 0, 0, []⟩, [(5000, 6000)], by decide, by decide, by decide, by decide,
      by decide, List.Forall₂.cons (by decide) List.Forall₂.nil, by decide, by decide, rfl⟩
    ⟨"BEGIN IONS".toList, lines ["PEPMASS=2"], "7 8".toList, lines ["9 10"],
      "END IONS".toList, ⟨[], 0, 2000, 0, 0, []⟩, [(7000, 8000), (9000, 10000)], by decide,
      by decide, by decide, by decide, by decide,
      List.Forall₂.cons (by decide) (List.Forall₂.cons (by decide) List.Forall₂.nil),
      by decide, by decide, rfl⟩

/-- C9, the code at the failing input. The block has neither `RTINSECONDS` nor
`TITLE` line; the call returns the retention time 77 and the title "old" that
the reference parameters held before the call, while the peak list, the charge
and the precursor values that they held are gone. -/
theorem C9_stale_rt_and_title :
    getNextSpectrum_ milli ⟨[(9000, 9000)], 3, 4000, 5000, 77000, "old".toList⟩
      (lines ["BEGIN IONS", "PEPMASS=500.25", "1 2", "END IONS"]) =
      .ok (true, ⟨[(1000, 2000)], 0, 500250, 0, 77000, "old".toList⟩, []) ∧
    getNextSpectrum_ milli ⟨[], 0, 0, 0, 0, []⟩
      (lines ["BEGIN IONS", "PEPMASS=500.25", "1 2", "END IONS"]) =
      .ok (true, ⟨[(1000, 2000)], 0, 500250, 0, 0, []⟩, []) := by
  decide

/-- C10, the code at the failing input. `CHARGE=2+` and `CHARGE=+2` give the
charge 2, but `CHARGE=-2` gives 4294967294: the `Int` -2 is assigned to the
`UInt&` parameter. -/
theorem C10_negative_charge_wraps :
    getNextSpectrum_ milli ⟨[], 0, 0, 0, 0, []⟩
      (lines ["BEGIN IONS", "CHARGE=2+", "1 2", "END IONS"]) =
      .ok (true, ⟨[(1000, 2000)], 2, 0, 0, 0, []⟩, []) ∧
    getNextSpectrum_ milli ⟨[], 0, 0, 0, 0, []⟩
      (lines ["BEGIN IONS", "CHARGE=+2", "1 2", "END IONS"]) =
      .ok (true, ⟨[(1000, 2000)], 2, 0, 0, 0, []⟩, []) ∧
    getNextSpectrum_ milli ⟨[], 0, 0, 0, 0, []⟩
      (lines ["BEGIN IONS", "CHARGE=-2", "1 2", "END IONS"]) =
      .ok (true, ⟨[(1000, 2000)], 4294967294, 0, 0, 0, []⟩, []) :=
  ⟨by decide, by decide, by decide⟩

/-! ### Round trip -/

theorem istream_store {D : Type} [DecidableEq D] (nf : Numeric D) (self : MascotInfile D)
    (filename : Str) (peaks : List (D × D)) (mz rt : D) (search_title : Str)
    (hmz : mz ≠ nf.zero) (hm : roundTrips nf mz = true) (hr : roundTrips nf rt = true)
    (hpk : ∀ pk ∈ peaks, roundTrips nf pk.1 = true ∧ roundTrips nf pk.2 = true) :
    istream (store nf self filename peaks mz rt search_title) =
      istream (writeHeader_ nf { self with search_title_ := search_title } ++
        attachmentHeader self filename) ++
      ("BEGIN IONS".toList ::
        (["TITLE=".toList ++ (nf.precisionWrapper mz ++ "_".toList ++ nf.precisionWrapper rt),
          "PEPMASS=".toList ++ nf.precisionWrapper mz,
          "RTINSECONDS=".toList ++ nf.precisionWrapper rt] ++
         (peaks.map (fun pk => nf.precisionWrapper pk.1 ++ ' ' :: nf.precisionWrapper pk.2) ++
          ["END IONS".toList])) ++
       istream ("\n".toList ++ "\n--".toList ++ self.boundary_ ++ "--".toList)) := by
  have htm := roundTrips_text nf mz hm
  have htr := roundTrips_text nf rt hr
  have hA : writeHeader_ nf { self with search_title_ := search_title } ++
      attachmentHeader self filename =
      (writeHeader_ nf { self with search_title_ := search_title } ++
        ("\n--".toList ++ self.boundary_ ++
         "\nContent-Disposition: form-data; name=\"FILE\"; filename=\"".toList ++ filename ++
         "\"\n".toList)) ++ ['\n'] := by
    simp [attachmentHeader, List.append_assoc]
  have hshape : store nf self filename peaks mz rt search_title =
      ((writeHeader_ nf { self with search_title_ := search_title } ++
        ("\n--".toList ++ self.boundary_ ++
         "\nContent-Disposition: form-data; name=\"FILE\"; filename=\"".toList ++ filename ++
         "\"\n".toList)) ++ ['\n']) ++
      ("BEGIN IONS".toList ++ '\n' ::
        (("TITLE=".toList ++ (nf.precisionWrapper mz ++ "_".toList ++ nf.precisionWrapper rt))
          ++ '\n' ::
        (("PEPMASS=".toList ++ nf.precisionWrapper mz) ++ '\n' ::
        (("RTINSECONDS=".toList ++ nf.precisionWrapper rt) ++ '\n' ::
        (peakLines nf peaks ++
        ("END IONS".toList ++ '\n' ::
          ("\n".toList ++ "\n--".toList ++ self.boundary_ ++ "--".toList))))))) := by
    have hw :
        writeHeader_ nf { self with mz_ := mz, retention_time_ := rt, search_title_ := search_title }
          = writeHeader_ nf { self with search_title_ := search_title } := rfl
    simp only [store, writeSpectrum_, if_neg hmz, hw, attachmentHeader]
    simp [List.append_assoc]
  have n1 : '\n' ∉ "BEGIN IONS".toList := by decide
  have n5 : '\n' ∉ "END IONS".toList := by decide
  have nm : '\n' ∉ nf.precisionWrapper mz := isNumberText_not_mem _ htm '\n' (by decide)
  have nr : '\n' ∉ nf.precisionWrapper rt := isNumberText_not_mem _ htr '\n' (by decide)
  have n2 : '\n' ∉ "TITLE=".toList ++ (nf.precisionWrapper mz ++ "_".toList ++
      nf.precisionWrapper rt) := by
    simp only [List.mem_append, not_or]
    exact ⟨by decide, ⟨nm, by decide⟩, nr⟩
  have n3 : '\n' ∉ "PEPMASS=".toList ++ nf.precisionWrapper mz := by
    simp only [List.mem_append, not_or]
    exact ⟨by decide, nm⟩
  have n4 : '\n' ∉ "RTINSECONDS=".toList ++ nf.precisionWrapper rt := by
    simp only [List.mem_append, not_or]
    exact ⟨by decide, nr⟩
  rw [hshape, istream_after_newline, ← hA, istream_line _ _ n1, istream_line _ _ n2,
    istream_line _ _ n3, istream_line _ _ n4, istream_peakLines nf peaks _ hpk,
    istream_line _ _ n5]
  simp

/-- C1, counterexample. A spectrum without peaks, precursor m/z 500.25 and
retention time 12 is stored with the default parameters; on the text written
`getNextSpectrum_` returns `false`. With the peaks (-1, 2) and (3, 4) it returns
`true` with the second peak only, and with the search title "BEGIN IONS" it
raises a parse error on the value 1.01 of the field FORMVER. -/
theorem C1_no_peaks_not_decoded :
    getNextSpectrum_ milli ⟨[], 0, 0, 0, 0, []⟩
      (istream (store milli (defaults "abc".toList) "f.mgf".toList [] 500250 12000 [])) =
      .ok (false, ⟨[], 0, 500250, 0, 12000, "500.25_12".toList⟩, []) ∧
    getNextSpectrum_ milli ⟨[], 0, 0, 0, 0, []⟩
      (istream (store milli (defaults "abc".toList) "f.mgf".toList
        [(-1000, 2000), (3000, 4000)] 500250 12000 [])) =
      .ok (true, ⟨[(3000, 4000)], 0, 500250, 0, 12000, "500.25_12".toList⟩,
        lines ["", "", "--abc--"]) ∧
    getNextSpectrum_ milli ⟨[], 0, 0, 0, 0, []⟩
      (istream (store milli (defaults "abc".toList) "f.mgf".toList
        [(1000, 2000)] 500250 12000 "BEGIN IONS".toList)) =
      .error (.ParseError
        "the line (1.01) should contain m/z and intensity value separated by whitespace!".toList) :=
  ⟨by decide, by decide, by decide⟩

/-- C1, amended. For every spectrum with at least one peak whose first m/z is
printed with a leading digit, every precursor m/z other than 0 and every
retention time, when number formatting followed by number parsing is the
identity on these numbers and no line of the parameter header and of the
attachment header trims to `BEGIN IONS`, `getNextSpectrum_` on the text written
by the single-spectrum `store` returns `true` with the same precursor m/z, the
same retention time and the same peaks in the same order. -/
theorem C1_round_trip {D : Type} [DecidableEq D] (nf : Numeric D) (self : MascotInfile D)
    (filename : Str) (first : D × D) (more : List (D × D)) (mz rt : D) (search_title : Str)
    (out : Outputs D)
    (hmz : mz ≠ nf.zero) (hm : roundTrips nf mz = true) (hr : roundTrips nf rt = true)
    (hpk : ∀ pk ∈ first :: more, roundTrips nf pk.1 = true ∧ roundTrips nf pk.2 = true)
    (hdigit : startsPeaks (nf.precisionWrapper first.1) = true)
    (hhead : ∀ l ∈ istream (writeHeader_ nf { self with search_title_ := search_title } ++
      attachmentHeader self filename), trim l ≠ "BEGIN IONS".toList) :
    ∃ (res : Outputs D) (rest : List Str),
      getNextSpectrum_ nf out
        (istream (store nf self filename (first :: more) mz rt search_title)) =
        .ok (true, res, rest) ∧
      res.precursor_mz = mz ∧ res.rt = rt ∧ res.spectrum = first :: more := by
  obtain ⟨hstart, o, ho, homz, hort⟩ := written_header_read nf mz rt (resetOutputs nf out) hm hr
  have hfirst := hpk first (by simp)
  have ha := roundTrips_text nf first.1 hfirst.1
  have hb := roundTrips_text nf first.2 hfirst.2
  have hmore : ∀ pk ∈ more, roundTrips nf pk.1 = true ∧ roundTrips nf pk.2 = true :=
    fun pk h => hpk pk (List.mem_cons_of_mem _ h)
  have hblock : IsBlock nf out
      ("BEGIN IONS".toList ::
        (["TITLE=".toList ++ (nf.precisionWrapper mz ++ "_".toList ++ nf.precisionWrapper rt),
          "PEPMASS=".toList ++ nf.precisionWrapper mz,
          "RTINSECONDS=".toList ++ nf.precisionWrapper rt] ++
         ((first :: more).map
            (fun pk => nf.precisionWrapper pk.1 ++ ' ' :: nf.precisionWrapper pk.2) ++
          ["END IONS".toList])))
      { o with spectrum := first :: more } := by
    refine ⟨"BEGIN IONS".toList, _, nf.precisionWrapper first.1 ++ ' ' :: nf.precisionWrapper first.2,
      more.map (fun pk => nf.precisionWrapper pk.1 ++ ' ' :: nf.precisionWrapper pk.2),
      "END IONS".toList, o, first :: more, ?_, by decide, hstart, ho, ?_, ?_, ?_, by decide, rfl⟩
    · simp
    · rw [written_peak_trim _ _ ha hb]
      obtain ⟨c, t, hct⟩ := List.exists_cons_of_ne_nil (isNumberText_ne_nil _ ha)
      rw [hct] at hdigit ⊢
      exact hdigit
    · exact written_peaks_read nf (first :: more) hpk
    · intro l hl
      obtain ⟨pk, hpkm, rfl⟩ := List.mem_map.mp hl
      have := hmore pk hpkm
      exact written_peak_not_end _ _ (roundTrips_text nf pk.1 this.1)
        (roundTrips_text nf pk.2 this.2)
  refine ⟨{ o with spectrum := first :: more },
    istream ("\n".toList ++ "\n--".toList ++ self.boundary_ ++ "--".toList), ?_, homz, hort, rfl⟩
  rw [istream_store nf self filename (first :: more) mz rt search_title hmz hm hr hpk]
  exact getNextSpectrum_of_isBlock nf out _ _ _ _ hhead hblock

/-- Witness of C1 (amended): the peaks (1, 2) and (3.5, 4), precursor m/z
500.25, retention time 12 and the search title "run 1", stored with the default
parameters. -/
theorem C1_round_trip_witness :
    ∃ (res : Outputs Int) (rest : List Str),
      getNextSpectrum_ milli ⟨[(9000, 9000)], 1, 1, 1, 1, "t".toList⟩
        (istream (store milli (defaults "abc".toList) "f.mgf".toList
          ((1000, 2000) :: [(3500, 4000)]) 500250 12000 "run 1".toList)) =
        .ok (true, res, rest) ∧
      res.precursor_mz = 500250 ∧ res.rt = 12000 ∧
      res.spectrum = (1000, 2000) :: [(3500, 4000)] :=
  C1_round_trip milli (defaults "abc".toList) "f.mgf".toList (1000, 2000) [(3500, 4000)]
    500250 12000 "run 1".toList ⟨[(9000, 9000)], 1, 1, 1, 1, "t".toList⟩
    (by decide) (by decide) (by decide) (by decide) (by decide) (by decide)

/-! ### Encoder: blocks of an experiment -/

/-- C11, the code at the failing input. A spectrum of MS level 2 with precursor
m/z 500.25 and precursor charge -2 is written with the line `CHARGE=--2`: after
the sign `-` the stream receives the charge itself, not its absolute value.
With the charge 2 the line is `CHARGE=+2`, and with the charge 0 there is no
`CHARGE` line. -/
theorem C11_negative_charge_line :
    writeMSExperiment_ milli (defaults "abc".toList) "f.mgf".toList
      [⟨[(1000, 2000)], [⟨500250, -2⟩], 2, 12000⟩] =
      attachmentHeader (defaults "abc".toList) "f.mgf".toList ++
      ("\nBEGIN IONS\nTITLE=500.25_12\nPEPMASS=500.25\nRTINSECONDS=12\n".toList ++
       "CHARGE=--2\n\n1 2\nEND IONS\n".toList) ∧
    writeMSExperiment_ milli (defaults "abc".toList) "f.mgf".toList
      [⟨[(1000, 2000)], [⟨500250, 2⟩], 2, 12000⟩] =
      attachmentHeader (defaults "abc".toList) "f.mgf".toList ++
      ("\nBEGIN IONS\nTITLE=500.25_12\nPEPMASS=500.25\nRTINSECONDS=12\n".toList ++
       "CHARGE=+2\n\n1 2\nEND IONS\n".toList) ∧
    writeMSExperiment_ milli (defaults "abc".toList) "f.mgf".toList
      [⟨[(1000, 2000)], [⟨500250, 0⟩], 2, 12000⟩] =
      attachmentHeader (defaults "abc".toList) "f.mgf".toList ++
      ("\nBEGIN IONS\nTITLE=500.25_12\nPEPMASS=500.25\nRTINSECONDS=12\n".toList ++
       "\n1 2\nEND IONS\n".toList) :=
  ⟨by decide, by decide, by decide⟩

theorem spectrumBlock_of_not_written {D : Type} [DecidableEq D] (nf : Numeric D)
    (spec : MSSpectrum D) (h : isWritten nf spec = false) : spectrumBlock nf spec = [] := by
  unfold spectrumBlock
  by_cases h2 : spec.msLevel = 2
  · by_cases hz : (firstPrecursor nf spec).mz = nf.zero
    · rw [if_pos h2, if_pos hz]
    · simp [isWritten, h2, hz] at h
  · rw [if_neg h2]

theorem flatMap_spectrumBlock_filter {D : Type} [DecidableEq D] (nf : Numeric D)
    (experiment : List (MSSpectrum D)) :
    experiment.flatMap (spectrumBlock nf) =
      (experiment.filter (isWritten nf)).flatMap (spectrumBlock nf) := by
  induction experiment with
  | nil => rfl
  | cons spec rest ih =>
    cases hw : isWritten nf spec with
    | true => rw [List.filter_cons_of_pos hw, List.flatMap_cons, List.flatMap_cons, ih]
    | false =>
      rw [List.filter_cons_of_neg (by simp [hw]), List.flatMap_cons,
        spectrumBlock_of_not_written nf spec hw, List.nil_append, ih]

/-- C12. For every experiment the text written by `writeMSExperiment_` after the
attachment header is the sequence of the blocks of exactly those spectra, in
input order, that have MS level 2 and a first precursor with an m/z other than
0 (no precursor counts as m/z 0). Each of these blocks starts with the line
`BEGIN IONS` and ends with the line `END IONS`; every other spectrum adds no
text. -/
theorem C12_inclusion_policy {D : Type} [DecidableEq D] (nf : Numeric D)
    (self : MascotInfile D) (filename : Str) (experiment : List (MSSpectrum D)) :
    writeMSExperiment_ nf self filename experiment =
      attachmentHeader self filename ++
        (experiment.filter (isWritten nf)).flatMap (spectrumBlock nf) ∧
    (∀ spec : MSSpectrum D, isWritten nf spec = true →
      ∃ body, spectrumBlock nf spec =
        "\nBEGIN IONS\n".toList ++ body ++ "END IONS\n".toList) ∧
    (∀ spec : MSSpectrum D, isWritten nf spec = false → spectrumBlock nf spec = []) ∧
    (∀ spec : MSSpectrum D, isWritten nf spec = true ↔
      (spec.msLevel = 2 ∧ (firstPrecursor nf spec).mz ≠ nf.zero)) ∧
    (∀ spec : MSSpectrum D, spec.precursors = [] → (firstPrecursor nf spec).mz = nf.zero) := by
  refine ⟨?_, ?_, spectrumBlock_of_not_written nf, ?_, ?_⟩
  · rw [writeMSExperiment_, flatMap_spectrumBlock_filter]
  · intro spec h
    simp only [isWritten, Bool.and_eq_true, decide_eq_true_eq, Bool.not_eq_true',
      decide_eq_false_iff_not] at h
    refine ⟨("TITLE=".toList ++ (nf.precisionWrapper (firstPrecursor nf spec).mz ++ "_".toList ++
        nf.precisionWrapper spec.rt) ++ "\n".toList) ++
      ("PEPMASS=".toList ++ nf.precisionWrapper (firstPrecursor nf spec).mz ++ "\n".toList) ++
      ("RTINSECONDS=".toList ++ nf.precisionWrapper spec.rt ++ "\n".toList) ++
      chargeLine (firstPrecursor nf spec).charge ++ "\n".toList ++
      peakLines nf (sortByPosition nf spec.peaks), ?_⟩
    rw [spectrumBlock, if_pos h.1, if_neg h.2]
    simp only [List.append_assoc]
  · intro spec
    simp [isWritten]
  · intro spec h
    simp [firstPrecursor, h]

set_option maxRecDepth 8000 in
/-- Witness of C12: of six spectra, the one without precursor, the one of MS
level 1, the one of MS level 0 and the one with precursor m/z 0 add no text;
the two blocks written are those of the first and of the last spectrum. -/
theorem C12_inclusion_policy_witness :
    writeMSExperiment_ milli (defaults "abc".toList) "f.mgf".toList
      [⟨[(1000, 2000)], [⟨500250, 0⟩], 2, 12000⟩, ⟨[(1000, 1000)], [], 2, 0⟩,
       ⟨[(1000, 1000)], [⟨1000, 2⟩], 1, 0⟩, ⟨[(1000, 1000)], [⟨1000, 2⟩], 0, 0⟩,
       ⟨[(1000, 1000)], [⟨0, 2⟩], 2, 0⟩, ⟨[], [⟨7000, 0⟩, ⟨8000, 3⟩], 2, 5000⟩] =
      attachmentHeader (defaults "abc".toList) "f.mgf".toList ++
      ("\nBEGIN IONS\nTITLE=500.25_12\nPEPMASS=500.25\nRTINSECONDS=12\n\n1 2\nEND IONS\n".toList ++
       "\nBEGIN IONS\nTITLE=7_5\nPEPMASS=7\nRTINSECONDS=5\n\nEND IONS\n".toList) :=
  ((C12_inclusion_policy milli (defaults "abc".toList) "f.mgf".toList _).1).trans (by decide)

theorem peakLines_eq_lines {D : Type} (nf : Numeric D) (peaks : List (D × D)) :
    peakLines nf peaks =
      (peaks.map (fun it => nf.precisionWrapper it.1 ++ " ".toList ++
        nf.precisionWrapper it.2)).flatMap (fun l => l ++ "\n".toList) := by
  induction peaks with
  | nil => rfl
  | cons pk pks ih =>
    rw [List.map_cons, List.flatMap_cons, ← ih]
    rfl

/-- C13. `writeSpectrum_` writes nothing to the file when the precursor m/z is
0. Otherwise, for every peak list, the empty one included, it writes the
attachment header and then the lines `BEGIN IONS`, `TITLE=<mz>_<rt>`,
`PEPMASS=<mz>`, `RTINSECONDS=<rt>`, one line `<m/z> <intensity>` per peak in
input order with one blank between the numbers, and `END IONS`, each line
followed by a line feed. -/
theorem C13_single_spectrum_block {D : Type} [DecidableEq D] (nf : Numeric D)
    (self : MascotInfile D) (filename : Str) (peaks : List (D × D)) :
    (self.mz_ = nf.zero → writeSpectrum_ nf self filename peaks = []) ∧
    (self.mz_ ≠ nf.zero → writeSpectrum_ nf self filename peaks =
      attachmentHeader self filename ++
      (["BEGIN IONS".toList,
        "TITLE=".toList ++ (nf.precisionWrapper self.mz_ ++ "_".toList ++
          nf.precisionWrapper self.retention_time_),
        "PEPMASS=".toList ++ nf.precisionWrapper self.mz_,
        "RTINSECONDS=".toList ++ nf.precisionWrapper self.retention_time_] ++
       peaks.map (fun it => nf.precisionWrapper it.1 ++ " ".toList ++
        nf.precisionWrapper it.2) ++
       ["END IONS".toList]).flatMap (fun l => l ++ "\n".toList)) := by
  constructor
  · intro h
    rw [writeSpectrum_, if_pos h]
  · intro h
    rw [writeSpectrum_, if_neg h, peakLines_eq_lines]
    simp [List.flatMap_append, List.flatMap_cons, List.append_assoc]

/-- Witness of C13: a spectrum without peaks and one with two peaks, precursor
m/z 500.25 and retention time 12; and the same with precursor m/z 0. -/
theorem C13_single_spectrum_block_witness :
    writeSpectrum_ milli { defaults "abc".toList with mz_ := 500250, retention_time_ := 12000 }
      "f.mgf".toList [] =
      attachmentHeader (defaults "abc".toList) "f.mgf".toList ++
      "BEGIN IONS\nTITLE=500.25_12\nPEPMASS=500.25\nRTINSECONDS=12\nEND IONS\n".toList ∧
    writeSpectrum_ milli { defaults "abc".toList with mz_ := 500250, retention_time_ := 12000 }
      "f.mgf".toList [(3000, 4000), (1000, 2000)] =
      attachmentHeader (defaults "abc".toList) "f.mgf".toList ++
      "BEGIN IONS\nTITLE=500.25_12\nPEPMASS=500.25\nRTINSECONDS=12\n3 4\n1 2\nEND IONS\n".toList ∧
    writeSpectrum_ milli (defaults "abc".toList) "f.mgf".toList [(3000, 4000)] = [] :=
  ⟨((C13_single_spectrum_block milli
      { defaults "abc".toList with mz_ := 500250, retention_time_ := 12000 } "f.mgf".toList
      []).2 (by decide)).trans (by decide),
   ((C13_single_spectrum_block milli
      { defaults "abc".toList with mz_ := 500250, retention_time_ := 12000 } "f.mgf".toList
      [(3000, 4000), (1000, 2000)]).2 (by decide)).trans (by decide),
   (C13_single_spectrum_block milli (defaults "abc".toList) "f.mgf".toList
      [(3000, 4000)]).1 (by decide)⟩

/-- C17. For every spectrum that `writeMSExperiment_` writes (MS level 2,
precursor m/z other than 0), when the comparison of m/z values is total and
transitive, the peak lines written are those of a permutation of the peaks of
the spectrum that is in non-decreasing order of m/z, whatever the order of the
peaks in the input. The experiment is an argument of the function and not part
of its result: the sort works on a copy. -/
theorem C17_sorted_peaks {D : Type} [DecidableEq D] (nf : Numeric D) (spec : MSSpectrum D)
    (htotal : ∀ a b : D, nf.le a b = true ∨ nf.le b a = true)
    (htrans : ∀ a b c : D, nf.le a b = true → nf.le b c = true → nf.le a c = true)
    (hlevel : spec.msLevel = 2) (hmz : (firstPrecursor nf spec).mz ≠ nf.zero) :
    spectrumBlock nf spec =
      ("\nBEGIN IONS\n".toList ++
        ("TITLE=".toList ++ (nf.precisionWrapper (firstPrecursor nf spec).mz ++ "_".toList ++
          nf.precisionWrapper spec.rt) ++ "\n".toList) ++
        ("PEPMASS=".toList ++ nf.precisionWrapper (firstPrecursor nf spec).mz ++ "\n".toList) ++
        ("RTINSECONDS=".toList ++ nf.precisionWrapper spec.rt ++ "\n".toList) ++
        chargeLine (firstPrecursor nf spec).charge ++ "\n".toList) ++
      peakLines nf (sortByPosition nf spec.peaks) ++ "END IONS\n".toList ∧
    List.Perm (sortByPosition nf spec.peaks) spec.peaks ∧
    List.Sorted (fun a b : D × D => nf.le a.1 b.1 = true) (sortByPosition nf spec.peaks) := by
  refine ⟨?_, ?_, ?_⟩
  · rw [spectrumBlock, if_pos hlevel, if_neg hmz]
  · exact List.perm_insertionSort _ spec.peaks
  · haveI : IsTotal (D × D) (fun a b => nf.le a.1 b.1 = true) := ⟨fun a b => htotal a.1 b.1⟩
    haveI : IsTrans (D × D) (fun a b => nf.le a.1 b.1 = true) :=
      ⟨fun a b c hab hbc => htrans a.1 b.1 c.1 hab hbc⟩
    exact List.sorted_insertionSort _ spec.peaks

theorem milli_le_total (a b : Int) : milli.le a b = true ∨ milli.le b a = true := by
  simp only [milli, decide_eq_true_eq]
  omega

theorem milli_le_trans (a b c : Int) (hab : milli.le a b = true) (hbc : milli.le b c = true) :
    milli.le a c = true := by
  simp only [milli, decide_eq_true_eq] at *
  omega

/-- Witness of C17: the peaks (3, 4), (1, 2), (2, 9) are written in the order
(1, 2), (2, 9), (3, 4). -/
theorem C17_sorted_peaks_witness :
    spectrumBlock milli ⟨[(3000, 4000), (1000, 2000), (2000, 9000)], [⟨500250, 0⟩], 2, 12000⟩ =
      "\nBEGIN IONS\nTITLE=500.25_12\nPEPMASS=500.25\nRTINSECONDS=12\n\n".toList ++
      "1 2\n2 9\n3 4\nEND IONS\n".toList ∧
    sortByPosition milli [(3000, 4000), (1000, 2000), (2000, 9000)] =
      [(1000, 2000), (2000, 9000), (3000, 4000)] :=
  ⟨((C17_sorted_peaks milli ⟨[(3000, 4000), (1000, 2000), (2000, 9000)], [⟨500250, 0⟩], 2, 12000⟩
      milli_le_total milli_le_trans (by decide) (by decide)).1).trans (by decide),
   by decide⟩

/-! ### Encoder: boundary -/

theorem writeHeader_eq_renderFields {D : Type} (nf : Numeric D) (self : MascotInfile D) :
    writeHeader_ nf self = renderFields self false (headerFields nf self) := by
  unfold writeHeader_ headerFields
  by_cases ht : self.search_title_ ≠ []
  · simp only [if_pos ht, List.cons_append, List.nil_append, List.singleton_append,
      renderFields, List.append_assoc, renderFields_append, List.append_nil]
  · simp only [if_neg ht, List.cons_append, List.nil_append, List.singleton_append,
      renderFields, List.append_assoc, renderFields_append, List.append_nil]

theorem headerFields_ne_nil {D : Type} (nf : Numeric D) (self : MascotInfile D) :
    headerFields nf self ≠ [] := by
  unfold headerFields
  by_cases ht : self.search_title_ ≠ []
  · simp [ht]
  · simp [ht]

theorem renderFields_congr {D : Type} (self other : MascotInfile D)
    (h : other.boundary_ = self.boundary_) (fields : List (Str × Str)) :
    ∀ line_break : Bool, renderFields other line_break fields =
      renderFields self line_break fields := by
  induction fields with
  | nil => intro _; rfl
  | cons f fs ih =>
    intro line_break
    obtain ⟨name, value⟩ := f
    simp only [renderFields, ih true, writeParameterHeader_, h]

theorem renderFields_snoc {D : Type} (self : MascotInfile D) (fields : List (Str × Str))
    (last : Str × Str) (hne : fields ≠ []) :
    ∀ line_break : Bool, renderFields self line_break (fields ++ [last]) =
      renderFields self line_break fields ++
        (writeParameterHeader_ self last.1 true ++ last.2) := by
  induction fields with
  | nil => exact absurd rfl hne
  | cons f fs ih =>
    intro line_break
    obtain ⟨name, value⟩ := f
    by_cases hfs : fs = []
    · subst hfs
      simp [renderFields]
    · rw [List.cons_append, renderFields, ih hfs true, renderFields]
      simp only [List.append_assoc]

theorem attachmentHeader_eq {D : Type} (self : MascotInfile D) (filename : Str) :
    attachmentHeader self filename =
      writeParameterHeader_ self ("FILE\"; filename=\"".toList ++ filename) true := by
  simp [attachmentHeader, writeParameterHeader_, List.append_assoc]

/-- C14. Both overloads of `store` write a document that is a sequence of
sections and the closing line: the parameter fields and, unless nothing is
written for the spectrum (precursor m/z 0 in the single-spectrum overload), the
FILE attachment with the spectrum blocks. Every section is opened by
`writeParameterHeader_`, that is by the line `--<boundary>` followed at once by
its `Content-Disposition` line and an empty line, with the boundary of the
encoder, and the document ends with a line feed, an empty line and
`--<boundary>--` after all blocks. -/
theorem C14_boundary_framing {D : Type} [DecidableEq D] (nf : Numeric D)
    (self : MascotInfile D) (filename : Str) (spec : List (D × D)) (mz retention_time : D)
    (search_title : Str) (experiment : List (MSSpectrum D)) :
    (∀ (name : Str) (line_break : Bool), writeParameterHeader_ self name line_break =
      (if line_break then "\n".toList else []) ++
      ("--".toList ++ self.boundary_ ++ "\n".toList) ++
      ("Content-Disposition: form-data; name=\"".toList ++ name ++ "\"\n".toList) ++
      "\n".toList) ∧
    (mz ≠ nf.zero →
      ∃ blocks : Str,
        store nf self filename spec mz retention_time search_title =
          renderFields self false
            (headerFields nf { self with search_title_ := search_title } ++
              [("FILE\"; filename=\"".toList ++ filename, blocks)]) ++
          ("\n\n--".toList ++ self.boundary_ ++ "--".toList)) ∧
    (mz = nf.zero →
      store nf self filename spec mz retention_time search_title =
        renderFields self false (headerFields nf { self with search_title_ := search_title }) ++
        ("\n\n--".toList ++ self.boundary_ ++ "--".toList)) ∧
    storeMSExperiment nf self filename experiment search_title =
      renderFields self false
        (headerFields nf { self with search_title_ := search_title } ++
          [("FILE\"; filename=\"".toList ++ filename, experiment.flatMap (spectrumBlock nf))]) ++
      ("\n\n--".toList ++ self.boundary_ ++ "--".toList) := by
  have hhead1 : writeHeader_ nf
      { self with mz_ := mz, retention_time_ := retention_time, search_title_ := search_title } =
      renderFields self false (headerFields nf { self with search_title_ := search_title }) := by
    have hfields : headerFields nf
        { self with mz_ := mz, retention_time_ := retention_time, search_title_ := search_title }
        = headerFields nf { self with search_title_ := search_title } := rfl
    rw [writeHeader_eq_renderFields, hfields]
    apply renderFields_congr
    rfl
  have hhead2 : writeHeader_ nf { self with search_title_ := search_title } =
      renderFields self false (headerFields nf { self with search_title_ := search_title }) := by
    rw [writeHeader_eq_renderFields]
    apply renderFields_congr
    rfl
  refine ⟨?_, ?_, ?_, ?_⟩
  · intro name line_break
    simp [writeParameterHeader_, List.append_assoc]
  · intro hmz
    refine ⟨"BEGIN IONS\n".toList ++
      ("TITLE=".toList ++ (nf.precisionWrapper mz ++ "_".toList ++
        nf.precisionWrapper retention_time) ++ "\n".toList) ++
      ("PEPMASS=".toList ++ nf.precisionWrapper mz ++ "\n".toList) ++
      ("RTINSECONDS=".toList ++ nf.precisionWrapper retention_time ++ "\n".toList) ++
      peakLines nf spec ++ "END IONS\n".toList, ?_⟩
    rw [renderFields_snoc self _ _ (headerFields_ne_nil nf _) false, ← attachmentHeader_eq,
      store]
    simp only [hhead1, writeSpectrum_, if_neg hmz]
    simp [attachmentHeader, List.append_assoc]
  · intro hmz
    rw [store]
    simp only [hhead1, writeSpectrum_, if_pos hmz]
    simp [List.append_assoc]
  · rw [renderFields_snoc self _ _ (headerFields_ne_nil nf _) false, ← attachmentHeader_eq,
      storeMSExperiment]
    simp only [hhead2, writeMSExperiment_]
    simp [attachmentHeader, List.append_assoc]

/-- Witness of C14: with precursor m/z 0 the single-spectrum document is the
parameter fields and the closing line; its last characters are the closing
line with the boundary of the encoder. -/
theorem C14_boundary_framing_witness :
    store milli (defaults "abc".toList) "f.mgf".toList [(1000, 2000)] 0 12000 [] =
      renderFields (defaults "abc".toList) false
        (headerFields milli { defaults "abc".toList with search_title_ := [] }) ++
      "\n\n--abc--".toList ∧
    (store milli (defaults "abc".toList) "f.mgf".toList [(1000, 2000)] 0 12000 []).take 30 =
      "--abc\nContent-Disposition: for".toList :=
  ⟨(C14_boundary_framing milli (defaults "abc".toList) "f.mgf".toList [(1000, 2000)] 0 12000 []
      []).2.2.1 (by decide),
   by decide⟩

/-! ### Decoder: unclosed block, cursor -/

/-- C15, the code at the failing input. A block is opened by `BEGIN IONS`, holds
a title and a precursor line but no peak line, and the stream ends without
`END IONS`: `getNextSpectrum_` returns `false` and raises nothing. The same
holds for a stream that ends right after `BEGIN IONS`. -/
theorem C15_unclosed_block_returns_false :
    getNextSpectrum_ milli ⟨[], 0, 0, 0, 0, []⟩
      (lines ["BEGIN IONS", "TITLE=a", "PEPMASS=500.25"]) =
      .ok (false, ⟨[], 0, 500250, 0, 0, "a".toList⟩, []) ∧
    getNextSpectrum_ milli ⟨[], 0, 0, 0, 0, []⟩ (lines ["BEGIN IONS"]) =
      .ok (false, ⟨[], 0, 0, 0, 0, []⟩, []) :=
  ⟨by decide, by decide⟩

theorem peakLoop_true_inv {D : Type} (nf : Numeric D) (ls : List Str) :
    ∀ (out : Outputs D) (line : Str) (flag : Bool) (res : Outputs D) (rest : List Str),
    peakLoop nf out line ls = .ok (flag, res, rest) →
    flag = true ∧ ∃ (more : List Str) (e : Str), ls = more ++ e :: rest ∧
      (∀ l ∈ more, trim l ≠ "END IONS".toList) ∧ trim e = "END IONS".toList ∧
      ∀ rest' : List Str, peakLoop nf out line (more ++ e :: rest') = .ok (true, res, rest') := by
  induction ls with
  | nil =>
    intro out line flag res rest h
    unfold peakLoop at h
    cases hp : peakLine nf line with
    | error err => rw [hp] at h; cases h
    | ok p => rw [hp] at h; cases h
  | cons next tl ih =>
    intro out line flag res rest h
    unfold peakLoop at h
    cases hp : peakLine nf line with
    | error err => rw [hp] at h; cases h
    | ok p =>
      rw [hp] at h
      simp only at h
      by_cases he : trim next = "END IONS".toList
      · rw [if_pos he] at h
        simp only [Except.ok.injEq, Prod.mk.injEq] at h
        obtain ⟨hflag, hres, hrest⟩ := h
        refine ⟨hflag.symm, [], next, ?_, ?_, he, ?_⟩
        · rw [hrest]; rfl
        · intro l hl; cases hl
        · intro rest'
          rw [List.nil_append, peakLoop]
          simp only [hp, if_pos he, hres]
      · rw [if_neg he] at h
        obtain ⟨hflag, more, e, htl, hmore, hend, hsame⟩ := ih _ _ _ _ _ h
        refine ⟨hflag, next :: more, e, ?_, ?_, hend, ?_⟩
        · rw [htl]; rfl
        · intro l hl
          rcases List.mem_cons.mp hl with rfl | hl
          · exact he
          · exact hmore l hl
        · intro rest'
          rw [List.cons_append, peakLoop]
          simp only [hp, if_neg he]
          exact hsame rest'

theorem blockLoop_true_inv {D : Type} (nf : Numeric D) (ls : List Str) :
    ∀ (out res : Outputs D) (rest : List Str),
    blockLoop nf out ls = .ok (true, res, rest) →
    ∃ (hdr : List Str) (p : Str) (more : List Str) (e : Str),
      ls = hdr ++ p :: (more ++ e :: rest) ∧
      (∀ l ∈ hdr, startsPeaks (trim l) = false) ∧ startsPeaks (trim p) = true ∧
      (∀ l ∈ more, trim l ≠ "END IONS".toList) ∧ trim e = "END IONS".toList ∧
      ∀ rest' : List Str,
        blockLoop nf out (hdr ++ p :: (more ++ e :: rest')) = .ok (true, res, rest') := by
  induction ls with
  | nil =>
    intro out res rest h
    simp [blockLoop] at h
  | cons raw tl ih =>
    intro out res rest h
    unfold blockLoop at h
    cases hh : headerLine nf (trim raw) out with
    | error err => rw [hh] at h; cases h
    | ok o1 =>
      rw [hh] at h
      simp only at h
      by_cases hs : startsPeaks (trim raw) = true
      · rw [if_pos hs] at h
        obtain ⟨_, more, e, htl, hmore, hend, hsame⟩ := peakLoop_true_inv nf tl _ _ _ _ _ h
        refine ⟨[], raw, more, e, ?_, ?_, hs, hmore, hend, ?_⟩
        · rw [htl]; rfl
        · intro l hl; cases hl
        · intro rest'
          rw [List.nil_append, blockLoop]
          simp only [hh, if_pos hs]
          exact hsame rest'
      · rw [if_neg hs] at h
        obtain ⟨hdr, p, more, e, htl, hhdr, hp, hmore, hend, hsame⟩ := ih _ _ _ h
        refine ⟨raw :: hdr, p, more, e, ?_, ?_, hp, hmore, hend, ?_⟩
        · rw [htl]; rfl
        · intro l hl
          rcases List.mem_cons.mp hl with rfl | hl
          · simpa using hs
          · exact hhdr l hl
        · intro rest'
          rw [List.cons_append, blockLoop]
          simp only [hh, if_neg hs]
          exact hsame rest'

theorem seekLoop_true_inv {D : Type} (nf : Numeric D) (ls : List Str) :
    ∀ (out res : Outputs D) (rest : List Str),
    seekLoop nf out ls = .ok (true, res, rest) →
    ∃ (pre : List Str) (b : Str) (hdr : List Str) (p : Str) (more : List Str) (e : Str),
      ls = pre ++ b :: (hdr ++ p :: (more ++ e :: rest)) ∧
      (∀ l ∈ pre, trim l ≠ "BEGIN IONS".toList) ∧ trim b = "BEGIN IONS".toList ∧
      (∀ l ∈ hdr, startsPeaks (trim l) = false) ∧ startsPeaks (trim p) = true ∧
      (∀ l ∈ more, trim l ≠ "END IONS".toList) ∧ trim e = "END IONS".toList ∧
      ∀ rest' : List Str,
        seekLoop nf out (pre ++ b :: (hdr ++ p :: (more ++ e :: rest'))) =
          .ok (true, res, rest') := by
  induction ls with
  | nil =>
    intro out res rest h
    simp [seekLoop] at h
  | cons raw tl ih =>
    intro out res rest h
    unfold seekLoop at h
    by_cases hb : trim raw = "BEGIN IONS".toList
    · rw [if_pos hb] at h
      obtain ⟨hdr, p, more, e, htl, hhdr, hp, hmore, hend, hsame⟩ :=
        blockLoop_true_inv nf tl _ _ _ h
      refine ⟨[], raw, hdr, p, more, e, ?_, ?_, hb, hhdr, hp, hmore, hend, ?_⟩
      · rw [htl]; rfl
      · intro l hl; cases hl
      · intro rest'
        rw [List.nil_append, seekLoop, if_pos hb]
        exact hsame rest'
    · rw [if_neg hb] at h
      obtain ⟨pre, b, hdr, p, more, e, htl, hpre, hbb, hhdr, hp, hmore, hend, hsame⟩ :=
        ih _ _ _ h
      refine ⟨raw :: pre, b, hdr, p, more, e, ?_, ?_, hbb, hhdr, hp, hmore, hend, ?_⟩
      · rw [htl]; rfl
      · intro l hl
        rcases List.mem_cons.mp hl with rfl | hl
        · exact hb
        · exact hpre l hl
      · intro rest'
        rw [List.cons_append, seekLoop, if_neg hb]
        exact hsame rest'

/-- C18. Whenever `getNextSpectrum_` returns `true`, the lines it has read are
the start of the stream up to and including the first line trimming to
`END IONS` that follows the first peak line (the first line starting with a
digit) of the first block: lines without `BEGIN IONS`, the `BEGIN IONS` line,
header lines, the peak lines, `END IONS`. The lines after it are left unread,
whatever they are: with any other lines in their place the call returns the
same outputs and leaves those lines, so that the next call starts right after
that `END IONS`. -/
theorem C18_cursor_resumption {D : Type} (nf : Numeric D) (out res : Outputs D)
    (is rest : List Str) (h : getNextSpectrum_ nf out is = .ok (true, res, rest)) :
    ∃ (pre : List Str) (b : Str) (hdr : List Str) (p : Str) (more : List Str) (e : Str),
      is = pre ++ b :: (hdr ++ p :: (more ++ e :: rest)) ∧
      (∀ l ∈ pre, trim l ≠ "BEGIN IONS".toList) ∧ trim b = "BEGIN IONS".toList ∧
      (∀ l ∈ hdr, startsPeaks (trim l) = false) ∧ startsPeaks (trim p) = true ∧
      (∀ l ∈ more, trim l ≠ "END IONS".toList) ∧ trim e = "END IONS".toList ∧
      ∀ rest' : List Str,
        getNextSpectrum_ nf out (pre ++ b :: (hdr ++ p :: (more ++ e :: rest'))) =
          .ok (true, res, rest') :=
  seekLoop_true_inv nf is (resetOutputs nf out) res rest h

/-- Witness of C18: a call on a stream of two blocks returns `true` and leaves
the second block unread. -/
theorem C18_cursor_resumption_witness :
    ∃ (pre : List Str) (b : Str) (hdr : List Str) (p : Str) (more : List Str) (e : Str),
      lines ["x", "BEGIN IONS", "PEPMASS=1", "5 6", "7 8", "END IONS", "BEGIN IONS", "9 9",
        "END IONS"] =
        pre ++ b :: (hdr ++ p :: (more ++ e :: lines ["BEGIN IONS", "9 9", "END IONS"])) ∧
      (∀ l ∈ pre, trim l ≠ "BEGIN IONS".toList) ∧ trim b = "BEGIN IONS".toList ∧
      (∀ l ∈ hdr, startsPeaks (trim l) = false) ∧ startsPeaks (trim p) = true ∧
      (∀ l ∈ more, trim l ≠ "END IONS".toList) ∧ trim e = "END IONS".toList ∧
      ∀ rest' : List Str,
        getNextSpectrum_ milli ⟨[], 0, 0, 0, 0, []⟩
          (pre ++ b :: (hdr ++ p :: (more ++ e :: rest'))) =
          .ok (true, ⟨[(5000, 6000), (7000, 8000)], 0, 1000, 0, 0, []⟩, rest') :=
  C18_cursor_resumption milli ⟨[], 0, 0, 0, 0, []⟩
    ⟨[(5000, 6000), (7000, 8000)], 0, 1000, 0, 0, []⟩ _ _ (by decide)

/-! ### Decoder: title lines -/

theorem headerLine_title {D : Type} (nf : Numeric D) (line : Str) (out : Outputs D)
    (h : hasPrefix line "TITLE".toList = true) :
    headerLine nf line out = .ok (titleBranch nf line out) ∧ startsPeaks line = false := by
  obtain ⟨t, rfl⟩ := hasPrefix_eq_true line _ h
  refine ⟨?_, rfl⟩
  unfold headerLine
  rw [pepmassBranch_skip nf ("TITLE".toList ++ t) out rfl]
  simp only
  rw [chargeBranch_skip nf ("TITLE".toList ++ t) out rfl]
  simp only
  rw [rtBranch_skip nf ("TITLE".toList ++ t) out rfl]

theorem blockLoop_title {D : Type} (nf : Numeric D) (out : Outputs D) (raw : Str)
    (rest : List Str) (h : hasPrefix (trim raw) "TITLE".toList = true) :
    blockLoop nf out (raw :: rest) = blockLoop nf (titleBranch nf (trim raw) out) rest := by
  rw [blockLoop, (headerLine_title nf (trim raw) out h).1]
  simp only [(headerLine_title nf (trim raw) out h).2]
  rfl

theorem minuteLoop_all_numbers {D : Type} (nf : Numeric D) (parts : List Str) :
    ∀ rt : D,
    (∀ q ∈ parts.filter (fun part => hasSubstring part "min".toList),
      ∃ x, minutesOf nf q = some x) →
    ∃ rt' : D, minuteLoop nf parts rt = (rt', false) ∧
      (parts.filter (fun part => hasSubstring part "min".toList) = [] → rt' = rt) ∧
      (∀ (part : Str) (m : D),
        (parts.filter (fun part => hasSubstring part "min".toList)).getLast? = some part →
        minutesOf nf part = some m → rt' = nf.times60 m) := by
  induction parts with
  | nil =>
    intro rt _
    refine ⟨rt, rfl, fun _ => rfl, ?_⟩
    intro part m hlast
    simp at hlast
  | cons q qs ih =>
    intro rt hall
    by_cases hq : hasSubstring q "min".toList = true
    · have hfilter : (q :: qs).filter (fun part => hasSubstring part "min".toList) =
          q :: qs.filter (fun part => hasSubstring part "min".toList) :=
        List.filter_cons_of_pos hq
      rw [hfilter] at hall ⊢
      obtain ⟨x, hx⟩ := hall q (by simp)
      have hrest : ∀ r ∈ qs.filter (fun part => hasSubstring part "min".toList),
          ∃ y, minutesOf nf r = some y := fun r hr => hall r (List.mem_cons_of_mem _ hr)
      have hstep : minuteLoop nf (q :: qs) rt = minuteLoop nf qs (nf.times60 x) := by
        unfold minutesOf at hx
        rw [minuteLoop, if_pos hq]
        cases hsp : split ' ' (trim q) with
        | nil => rw [hsp] at hx; cases hx
        | cons first others =>
          rw [hsp] at hx
          simp only at hx
          simp only [hx]
      obtain ⟨rt', hrun, hnone, hlast⟩ := ih (nf.times60 x) hrest
      refine ⟨rt', by rw [hstep, hrun], ?_, ?_⟩
      · intro hnil
        cases hnil
      · intro part m hpart hm
        by_cases hempty : qs.filter (fun part => hasSubstring part "min".toList) = []
        · rw [hempty] at hpart
          simp only [List.getLast?_singleton, Option.some.injEq] at hpart
          subst hpart
          rw [hx] at hm
          cases hm
          exact hnone hempty
        · obtain ⟨r, rs, hrs⟩ := List.exists_cons_of_ne_nil hempty
          rw [hrs, List.getLast?_cons_cons, ← hrs] at hpart
          exact hlast part m hpart hm
    · have hfilter : (q :: qs).filter (fun part => hasSubstring part "min".toList) =
          qs.filter (fun part => hasSubstring part "min".toList) :=
        List.filter_cons_of_neg hq
      rw [hfilter] at hall ⊢
      have hstep : minuteLoop nf (q :: qs) rt = minuteLoop nf qs rt := by
        rw [minuteLoop, if_neg hq]
      obtain ⟨rt', hrun, hnone, hlast⟩ := ih rt hall
      exact ⟨rt', by rw [hstep, hrun], hnone, hlast⟩

/-- C16, counterexample. The title line `TITLE=x min, 7 min` has the part
" 7 min" that holds "min" and starts with the number 7, but the call leaves the
retention time at the 5 it had and sets the title to "x min, 7 min": the first
part holds "min" as well, its first field is not a number, and the `catch`
clause takes over. -/
theorem C16_minutes_after_failed_part :
    getNextSpectrum_ milli ⟨[], 0, 0, 0, 5000, "old".toList⟩
      (lines ["BEGIN IONS", "TITLE=x min, 7 min", "1 2", "END IONS"]) =
      .ok (true, ⟨[(1000, 2000)], 0, 0, 0, 5000, "x min, 7 min".toList⟩, []) := by
  decide

/-- C16, amended. For a line inside a block that has the prefix `TITLE` and
holds "min", when every comma separated part holding "min" starts, after
trimming, with a blank separated field that is a number, the retention time
becomes 60 times the number of the last such part and nothing else changes, the
title included. The scan then goes on with the next line. -/
theorem C16_title_minutes {D : Type} (nf : Numeric D) (out : Outputs D) (raw : Str)
    (rest : List Str) (part : Str) (m : D)
    (hp : hasPrefix (trim raw) "TITLE".toList = true)
    (hmin : hasSubstring (trim raw) "min".toList = true)
    (hall : ∀ q ∈ minuteParts (trim raw), (minutesOf nf q).isSome = true)
    (hlast : (minuteParts (trim raw)).getLast? = some part)
    (hm : minutesOf nf part = some m) :
    blockLoop nf out (raw :: rest) = blockLoop nf { out with rt := nf.times60 m } rest := by
  obtain ⟨rt', hrun, _, hrt⟩ := minuteLoop_all_numbers nf (split ',' (trim raw)) out.rt
    (fun q hq => Option.isSome_iff_exists.mp (hall q hq))
  have hval : rt' = nf.times60 m := hrt part m hlast hm
  rw [blockLoop_title nf out raw rest hp, titleBranch, if_pos hp, if_pos hmin, hrun, hval]

/-- Witness of C16 (amended): `TITLE=Cmpd 1, +MSn(595.3), 10.9 min` gives the
retention time 654 and leaves the title as it was. -/
theorem C16_title_minutes_witness :
    getNextSpectrum_ milli ⟨[], 0, 0, 0, 5000, "old".toList⟩
      (lines ["BEGIN IONS", "TITLE=Cmpd 1, +MSn(595.3), 10.9 min", "1 2", "END IONS"]) =
      .ok (true, ⟨[(1000, 2000)], 0, 0, 0, 654000, "old".toList⟩, []) ∧
    showMilli 654000 = "654".toList ∧
    blockLoop milli ⟨[], 0, 0, 0, 5000, "old".toList⟩
      (lines ["TITLE=Cmpd 1, +MSn(595.3), 10.9 min", "1 2", "END IONS"]) =
      blockLoop milli ⟨[], 0, 0, 0, milli.times60 10900, "old".toList⟩
        (lines ["1 2", "END IONS"]) :=
  ⟨by decide, by decide,
   C16_title_minutes milli ⟨[], 0, 0, 0, 5000, "old".toList⟩
    "TITLE=Cmpd 1, +MSn(595.3), 10.9 min".toList (lines ["1 2", "END IONS"])
    " 10.9 min".toList 10900 (by decide) (by decide) (by decide) (by decide) (by decide)⟩

/-- C19. For a line inside a block that has the prefix `TITLE` and does not hold
"min", the line is split at `=`: with one `=` the title becomes the text after
it; with more than one `=` the title becomes the text between the first and the
second `=`, the further parts are not put back; without `=` the title is left
unchanged. Nothing else changes and the scan goes on with the next line. -/
theorem C19_plain_title {D : Type} (nf : Numeric D) (out : Outputs D) (raw : Str)
    (rest : List Str)
    (hp : hasPrefix (trim raw) "TITLE".toList = true)
    (hmin : hasSubstring (trim raw) "min".toList = false) :
    (∀ a t : Str, '=' ∉ a → '=' ∉ t → trim raw = a ++ '=' :: t →
      blockLoop nf out (raw :: rest) = blockLoop nf { out with title := t } rest) ∧
    (∀ a t r : Str, '=' ∉ a → '=' ∉ t → trim raw = a ++ '=' :: (t ++ '=' :: r) →
      blockLoop nf out (raw :: rest) = blockLoop nf { out with title := t } rest) ∧
    ('=' ∉ trim raw → blockLoop nf out (raw :: rest) = blockLoop nf out rest) := by
  have hne : trim raw ≠ [] := by
    intro e
    rw [e] at hp
    revert hp
    decide
  have hstep : blockLoop nf out (raw :: rest) =
      blockLoop nf (match splitAll '=' (trim raw) with
        | _ :: second :: _ => { out with title := second }
        | _ => out) rest := by
    have hs : split '=' (trim raw) = splitAll '=' (trim raw) := by rw [split, if_neg hne]
    rw [blockLoop_title nf out raw rest hp, titleBranch, if_pos hp, hmin, hs]
    rfl
  refine ⟨?_, ?_, ?_⟩
  · intro a t ha ht hline
    rw [hstep, hline, splitAll_append_cons, splitAll_of_not_mem '=' a ha,
      splitAll_of_not_mem '=' t ht]
    rfl
  · intro a t r ha ht hline
    rw [hstep, hline, splitAll_append_cons, splitAll_append_cons, splitAll_of_not_mem '=' a ha,
      splitAll_of_not_mem '=' t ht]
    rfl
  · intro hno
    rw [hstep, splitAll_of_not_mem '=' _ hno]

/-- Witness of C19: `TITLE=a=b` gives the title "a", `TITLE=scan 7` gives
"scan 7", and `TITLE` alone leaves the title as it was. -/
theorem C19_plain_title_witness :
    getNextSpectrum_ milli ⟨[], 0, 0, 0, 0, "old".toList⟩
      (lines ["BEGIN IONS", "TITLE=a=b", "1 2", "END IONS"]) =
      .ok (true, ⟨[(1000, 2000)], 0, 0, 0, 0, "a".toList⟩, []) ∧
    blockLoop milli ⟨[], 0, 0, 0, 0, "old".toList⟩ (lines ["TITLE=a=b", "1 2", "END IONS"]) =
      blockLoop milli ⟨[], 0, 0, 0, 0, "a".toList⟩ (lines ["1 2", "END IONS"]) ∧
    blockLoop milli ⟨[], 0, 0, 0, 0, "old".toList⟩ (lines ["TITLE=scan 7", "1 2", "END IONS"]) =
      blockLoop milli ⟨[], 0, 0, 0, 0, "scan 7".toList⟩ (lines ["1 2", "END IONS"]) ∧
    blockLoop milli ⟨[], 0, 0, 0, 0, "old".toList⟩ (lines ["TITLE", "1 2", "END IONS"]) =
      blockLoop milli ⟨[], 0, 0, 0, 0, "old".toList⟩ (lines ["1 2", "END IONS"]) :=
  ⟨by decide,
   (C19_plain_title milli ⟨[], 0, 0, 0, 0, "old".toList⟩ "TITLE=a=b".toList
      (lines ["1 2", "END IONS"]) (by decide) (by decide)).2.1 "TITLE".toList "a".toList
      "b".toList (by decide) (by decide) (by decide),
   (C19_plain_title milli ⟨[], 0, 0, 0, 0, "old".toList⟩ "TITLE=scan 7".toList
      (lines ["1 2", "END IONS"]) (by decide) (by decide)).1 "TITLE".toList "scan 7".toList
      (by decide) (by decide) (by decide),
   (C19_plain_title milli ⟨[], 0, 0, 0, 0, "old".toList⟩ "TITLE".toList
      (lines ["1 2", "END IONS"]) (by decide) (by decide)).2.2 (by decide)⟩

/-! ### Charge list: the example of the data model -/

theorem ite_ne_char (p : Prop) [Decidable p] (a b x : Char) (ha : a ≠ x) (hb : b ≠ x) :
    (if p then a else b) ≠ x := by
  split
  · exact ha
  · exact hb

theorem digitChar_ne_plus (k : Nat) : Nat.digitChar k ≠ '+' := by
  unfold Nat.digitChar
  repeat' apply ite_ne_char
  all_goals decide

theorem toDigitsCore_no_plus (fuel : Nat) :
    ∀ (n : Nat) (ds : List Char), '+' ∉ ds → '+' ∉ Nat.toDigitsCore 10 fuel n ds := by
  induction fuel with
  | zero => intro n ds h; exact h
  | succ f ih =>
    intro n ds h
    have hcons : '+' ∉ Nat.digitChar (n % 10) :: ds := by
      intro hm
      rcases List.mem_cons.mp hm with hm | hm
      · exact digitChar_ne_plus _ hm.symm
      · exact h hm
    unfold Nat.toDigitsCore
    simp only
    split
    · exact hcons
    · exact ih _ _ hcons

theorem showInt_no_plus (n : Int) : '+' ∉ showInt n := by
  have hnat : ∀ k : Nat, '+' ∉ showNat k := fun k =>
    toDigitsCore_no_plus _ _ _ (by simp)
  unfold showInt
  split
  · intro hm
    rcases List.mem_cons.mp hm with hm | hm
    · revert hm; decide
    · exact hnat _ hm
  · exact hnat _

theorem chargesLoop_no_plus (size : Nat) (cs : List Int) :
    ∀ i : Nat, (∀ c ∈ cs, ¬ c > 0) → '+' ∉ chargesLoop size i cs := by
  induction cs with
  | nil => intro i _; simp [chargesLoop]
  | cons c cs ih =>
    intro i h
    have hc : ¬ c > 0 := h c (by simp)
    have hrec := ih (i + 1) (fun d hd => h d (List.mem_cons_of_mem _ hd))
    have hshow := showInt_no_plus (wrapInt (-1 * c))
    have hdash : '+' ∉ "-".toList := by decide
    have hcomma : '+' ∉ ", ".toList := by decide
    have hand : '+' ∉ " and ".toList := by decide
    intro hm
    rw [chargesLoop] at hm
    rcases List.mem_append.mp hm with hm | hm
    · simp only [if_neg hc] at hm
      split_ifs at hm
      · rcases List.mem_append.mp hm with hm | hm
        · exact hshow hm
        · exact hdash hm
      · rcases List.mem_append.mp hm with hm | hm
        · rcases List.mem_append.mp hm with hm | hm
          · exact hcomma hm
          · exact hshow hm
        · exact hdash hm
      · rcases List.mem_append.mp hm with hm | hm
        · rcases List.mem_append.mp hm with hm | hm
          · exact hand hm
          · exact hshow hm
        · exact hdash hm
    · exact hrec hm

theorem chargesLoop_last (size : Nat) (cs : List Int) :
    ∀ (i : Nat) (c : Int), cs.getLast? = some c →
    ∃ x : Str, chargesLoop size i cs = x ++ [if c > 0 then '+' else '-'] := by
  induction cs with
  | nil => intro i c h; simp at h
  | cons c0 cs ih =>
    intro i c h
    cases cs with
    | nil =>
      simp only [List.getLast?_singleton, Option.some.injEq] at h
      subst h
      rw [chargesLoop, chargesLoop, List.append_nil]
      by_cases hp : c0 > 0
      · simp only [if_pos hp]
        split
        · exact ⟨showInt c0, rfl⟩
        · split
          · exact ⟨", ".toList ++ showInt c0, by simp⟩
          · exact ⟨" and ".toList ++ showInt c0, by simp⟩
      · simp only [if_neg hp]
        split
        · exact ⟨showInt (wrapInt (-1 * c0)), rfl⟩
        · split
          · exact ⟨", ".toList ++ showInt (wrapInt (-1 * c0)), by simp⟩
          · exact ⟨" and ".toList ++ showInt (wrapInt (-1 * c0)), by simp⟩
    | cons c1 cs' =>
      rw [List.getLast?_cons_cons] at h
      obtain ⟨x, hx⟩ := ih (i + 1) c h
      rw [chargesLoop, hx]
      exact ⟨_, (List.append_assoc _ _ _).symm⟩

theorem sorted_le_last (l : List Int) (c : Int) (hs : List.Sorted (fun a b => a ≤ b) l)
    (hl : l.getLast? = some c) : ∀ d ∈ l, d ≤ c := by
  obtain ⟨ys, rfl⟩ := List.getLast?_eq_some_iff.mp hl
  intro d hd
  rcases List.mem_append.mp hd with hd | hd
  · exact (List.pairwise_append.mp hs).2.2 d hd c (by simp)
  · simp only [List.mem_singleton] at hd
    rw [hd]

/-- C20, counterexample. No list of charges is rendered by `setCharges` as
"2+, 3+ and 4-": the last entry belongs to the greatest charge, so a rendering
that ends in `-` has no positive charge and holds no `+`. -/
theorem C20_no_list_renders_example :
    ¬ ∃ charges : List Int,
      (setCharges (defaults []) charges).1.charges_ = "2+, 3+ and 4-".toList := by
  rintro ⟨charges, h⟩
  have h' : chargesLoop (sortCharges charges).length 0 (sortCharges charges) =
      "2+, 3+ and 4-".toList := h
  have hsorted : List.Sorted (fun a b : Int => a ≤ b) (sortCharges charges) :=
    List.sorted_insertionSort (fun a b : Int => a ≤ b) charges
  cases hlast : (sortCharges charges).getLast? with
  | none =>
    rw [List.getLast?_eq_none_iff.mp hlast] at h'
    revert h'
    decide
  | some c =>
    obtain ⟨x, hx⟩ := chargesLoop_last (sortCharges charges).length (sortCharges charges) 0 c hlast
    have hsign : (if c > 0 then '+' else '-') = '-' := by
      have h1 : (x ++ [if c > 0 then '+' else '-']).getLast? =
          ("2+, 3+ and 4-".toList).getLast? := by rw [← hx, h']
      rw [List.getLast?_concat] at h1
      have h2 : ("2+, 3+ and 4-".toList).getLast? = some '-' := by decide
      rw [h2] at h1
      exact Option.some.inj h1
    have hc : ¬ c > 0 := by
      intro hpos
      rw [if_pos hpos] at hsign
      revert hsign
      decide
    have hall : ∀ d ∈ sortCharges charges, ¬ d > 0 := by
      intro d hd
      have := sorted_le_last _ c hsorted hlast d hd
      omega
    have hno := chargesLoop_no_plus (sortCharges charges).length (sortCharges charges) 0 hall
    rw [h'] at hno
    exact hno (by decide)

/-- C20, amended. There is a list of charges, namely 2, 3 and -4, that
`setCharges` renders in ascending order of the signed charges as
"4-, 2+ and 3+". -/
theorem C20_example_rendering :
    ∃ charges : List Int,
      (setCharges (defaults []) charges).2 = [-4, 2, 3] ∧
      (setCharges (defaults []) charges).1.charges_ = "4-, 2+ and 3+".toList :=
  ⟨[2, 3, -4], by decide, by decide⟩

/-! ### Decoder: a returned spectrum has a peak -/

theorem peakLoop_first_pair {D : Type} (nf : Numeric D) (ls : List Str) :
    ∀ (out : Outputs D) (line : Str) (flag : Bool) (res : Outputs D) (rest : List Str),
    peakLoop nf out line ls = .ok (flag, res, rest) →
    ∃ (pr : D × D) (tail : List (D × D)),
      peakLine nf line = .ok pr ∧ res.spectrum = out.spectrum ++ pr :: tail := by
  induction ls with
  | nil =>
    intro out line flag res rest h
    unfold peakLoop at h
    cases hp : peakLine nf line with
    | error err => rw [hp] at h; cases h
    | ok p => rw [hp] at h; cases h
  | cons next tl ih =>
    intro out line flag res rest h
    unfold peakLoop at h
    cases hp : peakLine nf line with
    | error err => rw [hp] at h; cases h
    | ok p =>
      rw [hp] at h
      simp only at h
      by_cases he : trim next = "END IONS".toList
      · rw [if_pos he] at h
        simp only [Except.ok.injEq, Prod.mk.injEq] at h
        obtain ⟨_, hres, _⟩ := h
        exact ⟨p, [], rfl, by rw [← hres]⟩
      · rw [if_neg he] at h
        obtain ⟨q, tail, _, hspec⟩ := ih _ _ _ _ _ h
        refine ⟨p, q :: tail, rfl, ?_⟩
        rw [hspec]
        simp

theorem blockLoop_header_inv {D : Type} (nf : Numeric D) (hdr : List Str) :
    ∀ (out : Outputs D) (after : List Str) (ret : Return D),
    (∀ l ∈ hdr, startsPeaks (trim l) = false) →
    blockLoop nf out (hdr ++ after) = .ok ret →
    ∃ o : Outputs D, headerLines nf out hdr = .ok o ∧ blockLoop nf o after = .ok ret := by
  induction hdr with
  | nil =>
    intro out after ret _ h
    exact ⟨out, rfl, h⟩
  | cons x xs ih =>
    intro out after ret hs h
    have hx : startsPeaks (trim x) = false := hs x (by simp)
    have hxs : ∀ l ∈ xs, startsPeaks (trim l) = false :=
      fun l hl => hs l (List.mem_cons_of_mem _ hl)
    rw [List.cons_append, blockLoop] at h
    cases hh : headerLine nf (trim x) out with
    | error err => rw [hh] at h; cases h
    | ok o1 =>
      rw [hh] at h
      simp only [hx] at h
      obtain ⟨o, ho, hrun⟩ := ih o1 after ret hxs h
      refine ⟨o, ?_, hrun⟩
      rw [headerLines, hh]
      exact ho

/-- C21. Whenever `getNextSpectrum_` returns `true`, the lines read are lines
without `BEGIN IONS`, a `BEGIN IONS` line, header lines that do not start with
a digit, a first line that starts with a digit (so it is not empty), further
lines and an `END IONS` line: at least three lines. The peak list returned is
not empty and its first pair is the one read from that first line starting with
a digit. On a stream without a line starting with a digit, such as a
`BEGIN IONS` / `END IONS` pair with nothing but header lines in between, the
call never returns `true`. -/
theorem C21_true_needs_peak {D : Type} (nf : Numeric D) (out res : Outputs D)
    (is rest : List Str) :
    (getNextSpectrum_ nf out is = .ok (true, res, rest) →
      ∃ (pre : List Str) (b : Str) (hdr : List Str) (p : Str) (more : List Str) (e : Str)
        (pr : D × D) (tail : List (D × D)),
        is = (pre ++ b :: (hdr ++ p :: (more ++ [e]))) ++ rest ∧
        3 ≤ (pre ++ b :: (hdr ++ p :: (more ++ [e]))).length ∧
        (∀ l ∈ pre, trim l ≠ "BEGIN IONS".toList) ∧ trim b = "BEGIN IONS".toList ∧
        (∀ l ∈ hdr, startsPeaks (trim l) = false) ∧
        startsPeaks (trim p) = true ∧ trim p ≠ [] ∧
        (∀ l ∈ more, trim l ≠ "END IONS".toList) ∧ trim e = "END IONS".toList ∧
        peakLine nf (trim p) = .ok pr ∧
        res.spectrum = pr :: tail ∧ res.spectrum ≠ []) ∧
    ((∀ l ∈ is, startsPeaks (trim l) = false) →
      getNextSpectrum_ nf out is ≠ .ok (true, res, rest)) := by
  have hinv : getNextSpectrum_ nf out is = .ok (true, res, rest) →
      ∃ (pre : List Str) (b : Str) (hdr : List Str) (p : Str) (more : List Str) (e : Str)
        (pr : D × D) (tail : List (D × D)),
        is = (pre ++ b :: (hdr ++ p :: (more ++ [e]))) ++ rest ∧
        3 ≤ (pre ++ b :: (hdr ++ p :: (more ++ [e]))).length ∧
        (∀ l ∈ pre, trim l ≠ "BEGIN IONS".toList) ∧ trim b = "BEGIN IONS".toList ∧
        (∀ l ∈ hdr, startsPeaks (trim l) = false) ∧
        startsPeaks (trim p) = true ∧ trim p ≠ [] ∧
        (∀ l ∈ more, trim l ≠ "END IONS".toList) ∧ trim e = "END IONS".toList ∧
        peakLine nf (trim p) = .ok pr ∧
        res.spectrum = pr :: tail ∧ res.spectrum ≠ [] := by
    intro h
    obtain ⟨pre, b, hdr, p, more, e, his, hpre, hb, hhdr, hp, hmore, he, _⟩ :=
      seekLoop_true_inv nf is (resetOutputs nf out) res rest h
    have hrun : blockLoop nf (resetOutputs nf out) (hdr ++ p :: (more ++ e :: rest)) =
        .ok (true, res, rest) := by
      rw [getNextSpectrum_, his, seekLoop_skip nf _ pre _ hpre, seekLoop_begin nf _ b _ hb] at h
      exact h
    obtain ⟨o, ho, hpeak⟩ := blockLoop_header_inv nf hdr _ _ _ hhdr hrun
    have hsp : o.spectrum = [] := headerLines_spectrum nf hdr _ o ho
    rw [blockLoop, headerLine_of_startsPeaks nf (trim p) o hp] at hpeak
    simp only [hp, if_true] at hpeak
    obtain ⟨pr, tail, hpr, hspec⟩ := peakLoop_first_pair nf _ _ _ _ _ _ hpeak
    rw [hsp, List.nil_append] at hspec
    refine ⟨pre, b, hdr, p, more, e, pr, tail, ?_, ?_, hpre, hb, hhdr, hp, ?_, hmore, he, hpr,
      hspec, ?_⟩
    · rw [his]; simp
    · simp only [List.length_append, List.length_cons, List.length_nil]
      omega
    · intro hnil
      rw [hnil] at hp
      cases hp
    · rw [hspec]
      exact List.cons_ne_nil _ _
  refine ⟨hinv, ?_⟩
  intro hno h
  obtain ⟨pre, b, hdr, p, more, e, _, _, his, _, _, _, _, hp, _⟩ := hinv h
  have hmem : p ∈ is := by rw [his]; simp
  rw [hno p hmem] at hp
  cases hp

/-- Witness of C21: a call that returns `true` on a block of two peak lines, and
a `BEGIN IONS` / `END IONS` pair with a title line only, on which the call
returns `false`. -/
theorem C21_true_needs_peak_witness :
    (∃ (pre : List Str) (b : Str) (hdr : List Str) (p : Str) (more : List Str) (e : Str)
        (pr : Int × Int) (tail : List (Int × Int)),
        lines ["x", "BEGIN IONS", "PEPMASS=1", "5 6", "7 8", "END IONS", "y"] =
          (pre ++ b :: (hdr ++ p :: (more ++ [e]))) ++ lines ["y"] ∧
        3 ≤ (pre ++ b :: (hdr ++ p :: (more ++ [e]))).length ∧
        (∀ l ∈ pre, trim l ≠ "BEGIN IONS".toList) ∧ trim b = "BEGIN IONS".toList ∧
        (∀ l ∈ hdr, startsPeaks (trim l) = false) ∧
        startsPeaks (trim p) = true ∧ trim p ≠ [] ∧
        (∀ l ∈ more, trim l ≠ "END IONS".toList) ∧ trim e = "END IONS".toList ∧
        peakLine milli (trim p) = .ok pr ∧
        (⟨[(5000, 6000), (7000, 8000)], 0, 1000, 0, 0, []⟩ : Outputs Int).spectrum = pr :: tail ∧
        (⟨[(5000, 6000), (7000, 8000)], 0, 1000, 0, 0, []⟩ : Outputs Int).spectrum ≠ []) ∧
    getNextSpectrum_ milli ⟨[], 0, 0, 0, 0, []⟩ (lines ["BEGIN IONS", "TITLE=a", "END IONS"]) ≠
      .ok (true, ⟨[], 0, 0, 0, 0, "a".toList⟩, []) ∧
    getNextSpectrum_ milli ⟨[], 0, 0, 0, 0, []⟩ (lines ["BEGIN IONS", "TITLE=a", "END IONS"]) =
      .ok (false, ⟨[], 0, 0, 0, 0, "a".toList⟩, []) :=
  ⟨(C21_true_needs_peak milli ⟨[], 0, 0, 0, 0, []⟩
      ⟨[(5000, 6000), (7000, 8000)], 0, 1000, 0, 0, []⟩
      (lines ["x", "BEGIN IONS", "PEPMASS=1", "5 6", "7 8", "END IONS", "y"])
      (lines ["y"])).1 (by decide),
   (C21_true_needs_peak milli ⟨[], 0, 0, 0, 0, []⟩ ⟨[], 0, 0, 0, 0, "a".toList⟩
      (lines ["BEGIN IONS", "TITLE=a", "END IONS"]) []).2 (by decide),
   by decide⟩

end OpenMS
